import Mathlib

/-!
Verification of the magic-loc-central pipeline against its specification.

The development shallowly embeds the three core components of the repository:
the serial frame decoder (src/stream_decoder.rs), the multi-stream
synchronizer (the two copies of `synchronize` in src/main.rs and
src/bin/magic-loc-central.rs), the trilateration front end
(src/optimization.rs), and the fixed little-endian packet layouts
(src/proto.rs).  Bytes are modeled as natural numbers, `u16`/`u64` fields as
bounded naturals, and `f64` range values by a four-constructor type that
keeps the IEEE comparison behaviour of the single comparison the code
performs (`x > 1e6`).
-/

set_option maxHeartbeats 1000000

namespace MagicLoc

/-! ## Frame decoder (src/stream_decoder.rs) -/

/-- Index of the first zero byte of a buffer, if any.  Mirrors the three
`for (index, byte) in ... enumerate()` scan loops inside
`MagicLocStreamDecoder::decode`. -/
def findZero : List Nat → Option Nat
  | [] => none
  | b :: l => if b = 0 then some 0 else (findZero l).map (· + 1)

/-- `MagicLocStreamDecoder::decode`.  The input is the accumulated buffer
(`src : BytesMut`); the result is the optional emitted frame together with
the buffer contents after the call.  `src.advance(i)` is `List.drop i`,
`src.clear()` yields `[]`, and `src.split_to(n)` splits into
`take n` / `drop n`.  The header test `src[1] != 0xFF || src[2] != 0x01 ||
src[3] != 0x00` is expressed (under the `len < 4` guard) as a comparison of
the three bytes after the leading zero with `[255, 1, 0]`. -/
def decode (src : List Nat) : Option (List Nat) × List Nat :=
  if src.isEmpty then (none, src)
  else
    match findZero src with
    | none => (none, [])
    | some z =>
      let s := src.drop z
      if s.length < 4 then (none, s)
      else if (s.drop 1).take 3 = [255, 1, 0] then
        match findZero (s.drop 4) with
        | none => (none, s)
        | some k => (some (s.take (k + 4)), s.drop (k + 4))
      else
        match findZero (s.drop 1) with
        | none => (none, [])
        | some j => (none, s.drop (j + 1))

/-- `decode` with every partial operation of the Rust body made explicit:
the indexing `src[1]`, `src[2]`, `src[3]`, and the `advance`/`split_to`
calls each abort (out-of-range access) when their bound fails, which the
model signals with `none`.  `some r` means the call returns normally with
result `r`. -/
def decodeChecked (src : List Nat) : Option (Option (List Nat) × List Nat) :=
  if src.isEmpty then some (none, src)
  else
    match findZero src with
    | none => some (none, [])
    | some z =>
      if src.length < z then none
      else
        let s := src.drop z
        if s.length < 4 then some (none, s)
        else
          match s[1]?, s[2]?, s[3]? with
          | some a, some b, some c =>
            if a = 255 ∧ b = 1 ∧ c = 0 then
              match findZero (s.drop 4) with
              | none => some (none, s)
              | some k =>
                if s.length < k + 4 then none
                else some (some (s.take (k + 4)), s.drop (k + 4))
            else
              match findZero (s.drop 1) with
              | none => some (none, [])
              | some j =>
                if s.length < j + 1 then none else some (none, s.drop (j + 1))
          | _, _, _ => none

/-- Repeatedly call `decode` on a buffer, collecting the emitted frames,
until a call neither emits a frame nor shortens the buffer (the repository's
own unit tests drive the decoder exactly this way).  `fuel` bounds the
number of calls; every productive call drops at least one byte, so
`src.length + 1` calls always suffice (see `drain`). -/
def drainF : Nat → List Nat → List (List Nat) × List Nat
  | 0, src => ([], src)
  | fuel + 1, src =>
    match decode src with
    | (some f, out) =>
      let r := drainF fuel out
      (f :: r.1, r.2)
    | (none, out) => if out.length < src.length then drainF fuel out else ([], out)

/-- Call `decode` to quiescence on a buffer. -/
def drain (src : List Nat) : List (List Nat) × List Nat :=
  drainF (src.length + 1) src

/-- Incremental decoding: bytes arrive chunk by chunk; after each arrival the
decoder is drained and the emitted frames are collected in order. -/
def processFrom (buf : List Nat) : List (List Nat) → List (List Nat)
  | [] => []
  | c :: cs =>
    let r := drain (buf ++ c)
    r.1 ++ processFrom r.2 cs

/-- The three header bytes `[0xFF, 0x01, 0x00]` that must follow a frame's
leading zero byte. -/
def hdr3 : List Nat := [255, 1, 0]

/-- The frame the decoder emits for an envelope with payload `p`:
leading zero, the three header bytes, then the payload (the trailing zero
delimiter is excluded). -/
def frameOf (p : List Nat) : List Nat := 0 :: 255 :: 1 :: 0 :: p

/-! ## Packet records (src/proto.rs) -/

/-- Little-endian byte encoding of `n` on `k` bytes, least significant
first, as `binrw` lays out the integer fields. -/
def toLE : Nat → Nat → List Nat
  | 0, _ => []
  | k + 1, n => n % 256 :: toLE k (n / 256)

/-- Value of a little-endian byte list. -/
def fromLE : List Nat → Nat
  | [] => 0
  | b :: bs => b + 256 * fromLE bs

/-- Read `n` consecutive `k`-byte little-endian words from a byte list. -/
def readWords (k : Nat) : Nat → List Nat → List Nat
  | 0, _ => []
  | n + 1, b => fromLE (b.take k) :: readWords k n (b.drop k)

/-- `proto::RangeReport`.  `ranges: [f64; 8]` is modeled by the eight 64-bit
patterns of the doubles: `binrw` reads and writes exactly those eight bytes
per entry, so bit-pattern identity is value identity for the wire layout. -/
structure RangeReport where
  tag_addr : Nat
  system_ts : Nat
  seq_num : Nat
  trigger_txts : Nat
  ranges : List Nat
deriving DecidableEq, Repr

/-- `proto::ImuReport`. -/
structure ImuReport where
  tag_addr : Nat
  system_ts : Nat
  accel : List Nat
  gyro : List Nat
deriving DecidableEq, Repr

/-- `proto::RawCirSample`: three raw bytes for the real part and three for
the imaginary part. -/
structure RawCirSample where
  real : List Nat
  imag : List Nat
deriving DecidableEq, Repr

/-- `proto::CirReport`. -/
structure CirReport where
  src_addr : Nat
  system_ts : Nat
  seq_num : Nat
  ip_poa : Nat
  fp_index : Nat
  start_index : Nat
  cir_size : Nat
  cir : List RawCirSample
deriving DecidableEq, Repr

/-- The magic tag `b"RNG"`. -/
def rngMagic : List Nat := [82, 78, 71]

/-- The magic tag `b"IMU"`. -/
def imuMagic : List Nat := [73, 77, 85]

/-- The magic tag `b"CIR"`. -/
def cirMagic : List Nat := [67, 73, 82]

/-- `binrw` serialization of a `RangeReport` (little-endian, magic first). -/
def rngEncode (r : RangeReport) : List Nat :=
  rngMagic ++ toLE 2 r.tag_addr ++ toLE 8 r.system_ts ++ toLE 1 r.seq_num ++
    toLE 8 r.trigger_txts ++ (r.ranges.map (toLE 8)).flatten

/-- `RangeReport::read`: check the magic, require the 83 bytes of the fixed
layout, and read the fields in order (trailing bytes are left unread, as a
`binrw` cursor does). -/
def rngDecode (b : List Nat) : Option RangeReport :=
  if b.take 3 = rngMagic then
    let r0 := b.drop 3
    if 83 ≤ r0.length then
      let r1 := r0.drop 2
      let r2 := r1.drop 8
      let r3 := r2.drop 1
      let r4 := r3.drop 8
      some { tag_addr := fromLE (r0.take 2), system_ts := fromLE (r1.take 8),
             seq_num := fromLE (r2.take 1), trigger_txts := fromLE (r3.take 8),
             ranges := readWords 8 8 r4 }
    else none
  else none

/-- `binrw` serialization of an `ImuReport`. -/
def imuEncode (r : ImuReport) : List Nat :=
  imuMagic ++ toLE 2 r.tag_addr ++ toLE 8 r.system_ts ++
    (r.accel.map (toLE 4)).flatten ++ (r.gyro.map (toLE 4)).flatten

/-- `ImuReport::read`. -/
def imuDecode (b : List Nat) : Option ImuReport :=
  if b.take 3 = imuMagic then
    let r0 := b.drop 3
    if 34 ≤ r0.length then
      let r1 := r0.drop 2
      let r2 := r1.drop 8
      let r3 := r2.drop 12
      some { tag_addr := fromLE (r0.take 2), system_ts := fromLE (r1.take 8),
             accel := readWords 4 3 r2, gyro := readWords 4 3 r3 }
    else none
  else none

/-- Serialization of one CIR sample: the three real bytes then the three
imaginary bytes, exactly as stored. -/
def sampleEnc (s : RawCirSample) : List Nat := s.real ++ s.imag

/-- Read `n` consecutive 6-byte CIR samples. -/
def readSamples : Nat → List Nat → List RawCirSample
  | 0, _ => []
  | n + 1, b => { real := b.take 3, imag := (b.drop 3).take 3 } :: readSamples n (b.drop 6)

/-- `binrw` serialization of a `CirReport`. -/
def cirEncode (r : CirReport) : List Nat :=
  cirMagic ++ toLE 2 r.src_addr ++ toLE 8 r.system_ts ++ toLE 1 r.seq_num ++
    toLE 2 r.ip_poa ++ toLE 2 r.fp_index ++ toLE 2 r.start_index ++
    toLE 2 r.cir_size ++ (r.cir.map sampleEnc).flatten

/-- `CirReport::read`. -/
def cirDecode (b : List Nat) : Option CirReport :=
  if b.take 3 = cirMagic then
    let r0 := b.drop 3
    if 115 ≤ r0.length then
      let r1 := r0.drop 2
      let r2 := r1.drop 8
      let r3 := r2.drop 1
      let r4 := r3.drop 2
      let r5 := r4.drop 2
      let r6 := r5.drop 2
      let r7 := r6.drop 2
      some { src_addr := fromLE (r0.take 2), system_ts := fromLE (r1.take 8),
             seq_num := fromLE (r2.take 1), ip_poa := fromLE (r3.take 2),
             fp_index := fromLE (r4.take 2), start_index := fromLE (r5.take 2),
             cir_size := fromLE (r6.take 2), cir := readSamples 16 r7 }
    else none
  else none

/-- The 24-bit two's-complement sign extension performed by
`From<CirReport> for ConvertedCirReport`: `i32::from_le_bytes([b0, b1, b2,
if b2 & 0x80 == 0x80 { 0xFF } else { 0x00 }])`.  For a byte `b2 < 256` the
test `b2 & 0x80 == 0x80` is `128 ≤ b2`.  The resulting `i32` is cast to
`f64`; every integer of magnitude below `2^24 ≤ 2^53` is exactly
representable, so the cast is modeled by the integer itself. -/
def signExt (b : List Nat) : ℤ :=
  match b with
  | [b0, b1, b2] =>
    let v : ℤ := (b0 : ℤ) + 256 * b1 + 65536 * b2
    if 128 ≤ b2 then v - 16777216 else v
  | _ => 0

/-- The three little-endian bytes of the 24-bit two's-complement pattern of
an integer; inverse of `signExt` on its domain. -/
def intToBytes24 (v : ℤ) : List Nat := toLE 3 (v % 16777216).toNat

/-- `proto::ConvertedCirReport`, with each complex sample modeled by the
pair of sign-extended integer values (exactly representable in `f64`). -/
structure ConvertedCirReport where
  src_addr : Nat
  system_ts : Nat
  seq_num : Nat
  ip_poa : Nat
  fp_index : Nat
  start_index : Nat
  cir_size : Nat
  cir : List (ℤ × ℤ)
deriving DecidableEq, Repr

/-- `From<CirReport> for ConvertedCirReport`: copy the metadata and
sign-extend each of the 16 samples (the `for i in 0..16` loop). -/
def toConverted (r : CirReport) : ConvertedCirReport :=
  { src_addr := r.src_addr, system_ts := r.system_ts, seq_num := r.seq_num,
    ip_poa := r.ip_poa, fp_index := r.fp_index, start_index := r.start_index,
    cir_size := r.cir_size,
    cir := r.cir.map (fun s => (signExt s.real, signExt s.imag)) }

/-- Field bounds under which a `RangeReport` is a value of the wire type. -/
def RangeValid (r : RangeReport) : Prop :=
  r.tag_addr < 2 ^ 16 ∧ r.system_ts < 2 ^ 64 ∧ r.seq_num < 2 ^ 8 ∧
    r.trigger_txts < 2 ^ 64 ∧ r.ranges.length = 8 ∧ ∀ x ∈ r.ranges, x < 2 ^ 64

/-- Field bounds under which an `ImuReport` is a value of the wire type. -/
def ImuValid (r : ImuReport) : Prop :=
  r.tag_addr < 2 ^ 16 ∧ r.system_ts < 2 ^ 64 ∧
    r.accel.length = 3 ∧ (∀ x ∈ r.accel, x < 2 ^ 32) ∧
    r.gyro.length = 3 ∧ ∀ x ∈ r.gyro, x < 2 ^ 32

/-- Field bounds under which a `CirReport` is a value of the wire type. -/
def CirValid (r : CirReport) : Prop :=
  r.src_addr < 2 ^ 16 ∧ r.system_ts < 2 ^ 64 ∧ r.seq_num < 2 ^ 8 ∧
    r.ip_poa < 2 ^ 16 ∧ r.fp_index < 2 ^ 16 ∧ r.start_index < 2 ^ 16 ∧
    r.cir_size < 2 ^ 16 ∧ r.cir.length = 16 ∧
    ∀ s ∈ r.cir, s.real.length = 3 ∧ s.imag.length = 3 ∧
      (∀ x ∈ s.real, x < 256) ∧ ∀ x ∈ s.imag, x < 256

/-! ## Dispatch step of sync_and_publish (src/bin/magic-loc-central.rs) -/

/-- Outcome of dispatching one successfully unstuffed payload. -/
inductive Dispatched where
  | rng (r : RangeReport)
  | imu (r : ImuReport)
  | skipped
deriving DecidableEq, Repr

/-- The dispatch-and-parse step of `sync_and_publish` on an unstuffed
payload `d`: slice `&d[0..3]` (aborting when `d` has fewer than 3 bytes),
compare against `b"RNG"` and `b"IMU"`, and `.unwrap()` the corresponding
layout parse (aborting when it fails).  `none` models the call aborting the
task. -/
def dispatch (d : List Nat) : Option Dispatched :=
  if d.length < 3 then none
  else if d.take 3 = rngMagic then
    match rngDecode d with
    | some r => some (.rng r)
    | none => none
  else if d.take 3 = imuMagic then
    match imuDecode d with
    | some r => some (.imu r)
    | none => none
  else some .skipped

/-! ## Multi-stream synchronizer (src/main.rs and src/bin/magic-loc-central.rs) -/

/-- Total number of occurrences of the key `t` over the full front-to-back
contents of all FIFOs: the value `txts_count[t]` after the counting loop. -/
def countTxts (fifos : List (List RangeReport)) (t : Nat) : Nat :=
  (fifos.map fun f => (f.filter fun r => r.trigger_txts = t).length).sum

/-- The distinct `trigger_txts` keys present in the FIFOs (the key set of
`txts_count`), in first-encounter order. -/
def allKeys (fifos : List (List RangeReport)) : List Nat :=
  ((fifos.map fun f => f.map fun r => r.trigger_txts).flatten).dedup

/-- The keys satisfying the match condition of the `find` call:
`count == serial_fifos.len()`. -/
def qualifying (fifos : List (List RangeReport)) : List Nat :=
  (allKeys fifos).filter fun t => countTxts fifos t == fifos.length

/-- The discard loop run on one FIFO: pop from the front while the front's
`trigger_txts` differs from the match value. -/
def dropUntil (t : Nat) (f : List RangeReport) : List RangeReport :=
  f.dropWhile fun r => r.trigger_txts != t

/-- Placeholder report (`headD` default); never the value actually read,
since every head access below is guarded by a non-emptiness check. -/
def dfltReport : RangeReport :=
  { tag_addr := 0, system_ts := 0, seq_num := 0, trigger_txts := 0, ranges := [] }

/-- The pop loop `packets.push(fifo.pop_front().unwrap())` over all FIFOs:
`none` when some FIFO is empty (the `unwrap` aborts), otherwise the list of
popped heads together with the advanced FIFOs. -/
def popFronts : List (List RangeReport) → Option (List RangeReport × List (List RangeReport))
  | [] => some ([], [])
  | [] :: _ => none
  | (r :: f) :: rest => (popFronts rest).map fun p => (r :: p.1, f :: p.2)

/-- Result of the `synchronize` in src/main.rs: either the process aborts
(`panicked`), or the function returns `batch` leaving the FIFOs in state
`fifos`. -/
inductive SyncResult where
  | panicked
  | ok (batch : Option (List RangeReport)) (fifos : List (List RangeReport))
deriving DecidableEq, Repr

/-- `synchronize` from src/main.rs.  `pick` models the iteration order of
the `HashMap` underlying `txts_count.iter().find(...)`: it chooses one
element of the non-empty list of qualifying keys (which element is
unspecified in Rust, hence the parameter). -/
def synchronizeMain (pick : List Nat → Nat) (fifos : List (List RangeReport)) : SyncResult :=
  if fifos.any List.isEmpty then .ok none fifos
  else if qualifying fifos = [] then .ok none fifos
  else
    let tm := pick (qualifying fifos)
    let fifos1 := fifos.map (dropUntil tm)
    match popFronts fifos1 with
    | none => .panicked
    | some p => .ok (some p.1) p.2

/-- `synchronize` from src/bin/magic-loc-central.rs: identical to the
src/main.rs copy except for the second emptiness check after the discard
loop, which returns `None` (leaving the discarded FIFOs) instead of
reaching the unguarded `unwrap`. -/
def synchronizeBin (pick : List Nat → Nat) (fifos : List (List RangeReport)) :
    Option (List RangeReport) × List (List RangeReport) :=
  if fifos.any List.isEmpty then (none, fifos)
  else if qualifying fifos = [] then (none, fifos)
  else
    let tm := pick (qualifying fifos)
    let fifos1 := fifos.map (dropUntil tm)
    if fifos1.any List.isEmpty then (none, fifos1)
    else
      match popFronts fifos1 with
      | some p => (some p.1, p.2)
      | none => (none, fifos1)

/-- A concrete admissible choice function (first qualifying key). -/
def pickHead (l : List Nat) : Nat := l.headD 0

/-- A report carrying only a `trigger_txts` key, for concrete FIFO states. -/
def rep (t : Nat) : RangeReport :=
  { tag_addr := 0, system_ts := 0, seq_num := 0, trigger_txts := t,
    ranges := List.replicate 8 0 }

/-- The property the specification asserts of a candidate match value:
`t` appears at least once in every FIFO. -/
def appearsInEvery (t : Nat) (fifos : List (List RangeReport)) : Prop :=
  ∀ f ∈ fifos, ∃ r ∈ f, r.trigger_txts = t

instance (t : Nat) (fifos : List (List RangeReport)) :
    Decidable (appearsInEvery t fifos) := by
  unfold appearsInEvery
  infer_instance

/-! ## Trilateration front end (src/optimization.rs) -/

/-- Model of an `f64` range value: a finite value (represented by the exact
rational it denotes), one of the two infinities, or a NaN.  The only
arithmetic the filter performs on it is the comparison `x > 1e6`, whose
IEEE semantics `F.gt1e6` reproduces (every comparison with NaN is false,
and `-inf > 1e6` is false). -/
inductive F where
  | fin (q : ℚ)
  | inf
  | neginf
  | nan
deriving DecidableEq, Repr

/-- The comparison `distances[i] > 1e6` of the filter loop. -/
def F.gt1e6 : F → Bool
  | .fin q => decide (1000000 < q)
  | .inf => true
  | .neginf => false
  | .nan => false

/-- Modelled from the spec: the validity predicate the specification uses
for a range entry — finite and at most the `1e6` sentinel threshold.  This
is the spec's wording, kept separate so it can be compared with the filter
the code actually applies. -/
def specValidRange : F → Bool
  | .fin q => decide (q ≤ 1000000)
  | _ => false

/-- A fixed anchor coordinate: an immutable labeled 3-D point.  The numeric
values are never computed with by the filter, so the `f64` literals are
carried as exact rationals. -/
def P3 : Type := ℚ × ℚ × ℚ

instance : DecidableEq P3 := by
  unfold P3
  infer_instance

/-- `configuration::COORDINATES`, the eight anchor coordinates. -/
def COORDINATES : List P3 :=
  [(61/10, 92/10, 3), (5, 0, 27/10), (89/10, 91/10, 3), (38/10, 0, 25/10),
   (8/10, 0, 28/10), (2, 9, 3), (57/10, 92/10, 15/10), (61/10, 92/10, 0)]

/-- The removal loop of `localize_point`: walk index `i` over `distances`,
removing `distances[i]` and `points[i]` when `distances[i] > 1e6`, else
advancing.  For equal-length lists the loop is this lockstep structural
recursion. -/
def removeInvalid : List F → List P3 → List F × List P3
  | d :: ds, pt :: ps =>
    if d.gt1e6 then removeInvalid ds ps
    else
      let r := removeInvalid ds ps
      (d :: r.1, pt :: r.2)
  | ds, ps => (ds, ps)

/-- The Gauss-Newton iteration of `least_squares_solution`.  One pass of
the loop body (Jacobian, pseudo-inverse, update, residual test) is the
`kernel`: it maps the current guess to the updated guess together with the
convergence flag `residuals.norm_squared() < 1e-3` (tested after the
update, returning the updated guess early when it holds).  The kernel's
IEEE floating-point numerics are left abstract, so every theorem about the
surrounding control flow holds for the real kernel; note
`pseudo_inverse(1e-9)` cannot fail since its epsilon is non-negative. -/
def gnLoop {G : Type} (kernel : G → G × Bool) : Nat → G → G
  | 0, g => g
  | n + 1, g =>
    let s := kernel g
    if s.2 then s.1 else gnLoop kernel n s.1

/-- `least_squares_solution`: reject mismatched or empty inputs, otherwise
run at most 45 Gauss-Newton iterations from the origin (`origin` names the
initial guess `Vector3::new(0.0, 0.0, 0.0)`) and always return the final
guess. -/
def least_squares_solution {G : Type} (kernel : G → G × Bool) (origin : G)
    (points : List P3) (distances : List F) : Option G :=
  if points.length ≠ distances.length ∨ points.length = 0 then none
  else some (gnLoop kernel 45 origin)

/-- `localize_point`: pair the measured distances with the anchor table,
run the removal loop, and hand the survivors to the solver. -/
def localize_point {G : Type} (kernel : G → G × Bool) (origin : G)
    (distances : List F) : Option G :=
  let r := removeInvalid distances COORDINATES
  least_squares_solution kernel origin r.2 r.1

/-! ## List helper lemmas -/

theorem pref_drop_mono {α : Type} {l₁ l₂ : List α} (h : l₁ <+: l₂) (k : Nat) :
    l₁.drop k <+: l₂.drop k := by
  obtain ⟨t, rfl⟩ := h
  rcases le_or_lt k l₁.length with hk | hk
  · exact ⟨t, (List.drop_append_of_le_length hk).symm⟩
  · rw [List.drop_eq_nil_of_le (Nat.le_of_lt hk)]
    exact ⟨_, rfl⟩

theorem pref_of_append_eq {α : Type} {a b c d : List α} (h : a ++ b = c ++ d)
    (hl : a.length ≤ c.length) : a <+: c := by
  have h1 : (a ++ b).take a.length = a := List.take_left a b
  rw [h, List.take_append_of_le_length hl] at h1
  exact h1 ▸ ⟨c.drop a.length, List.take_append_drop _ _⟩

theorem take_eq_of_pref {α : Type} {b L : List α} (h : b <+: L) {k : Nat}
    (hk : k ≤ b.length) : b.take k = L.take k := by
  obtain ⟨t, rfl⟩ := h
  rw [List.take_append_of_le_length hk]

theorem eq_of_pref_length {α : Type} {a b : List α} (h : a <+: b)
    (hl : b.length ≤ a.length) : a = b := by
  obtain ⟨t, rfl⟩ := h
  have : t = [] := by
    rw [List.length_append] at hl
    exact List.eq_nil_of_length_eq_zero (by omega)
  simp [this]

theorem pref_append_cancel {α : Type} {x y₁ y₂ : List α} (h : x ++ y₁ <+: x ++ y₂) :
    y₁ <+: y₂ := by
  obtain ⟨t, ht⟩ := h
  rw [List.append_assoc] at ht
  exact ⟨t, List.append_cancel_left ht⟩

theorem infix_of_pref_drop {α : Type} {l x : List α} {q : Nat} (h : l <+: x.drop q) :
    l <:+: x :=
  h.isInfix.trans (List.drop_suffix q x).isInfix

theorem not_infix_mono {α : Type} {l u v : List α} (h : ¬ l <:+: v) (huv : u <:+: v) :
    ¬ l <:+: u := fun hc => h (hc.trans huv)

theorem not_infix_drop_app {α : Type} {l m : List α} {e : List α}
    (h : ¬ l <:+: (m ++ e)) (d : Nat) : ¬ l <:+: (m.drop d ++ e) := by
  refine not_infix_mono h ?_
  have : m ++ e = m.take d ++ (m.drop d ++ e) := by
    rw [← List.append_assoc, List.take_append_drop]
  exact this ▸ (List.suffix_append (m.take d) (m.drop d ++ e)).isInfix

/-! ## findZero lemmas -/

theorem findZero_eq_none {l : List Nat} : findZero l = none ↔ ∀ x ∈ l, x ≠ 0 := by
  induction l with
  | nil => simp [findZero]
  | cons b l ih =>
    by_cases hb : b = 0
    · subst hb; simp [findZero]
    · simp [findZero, hb, ih]

theorem findZero_append {a b : List Nat} (ha : ∀ x ∈ a, x ≠ 0) :
    findZero (a ++ 0 :: b) = some a.length := by
  induction a with
  | nil => simp [findZero]
  | cons x a ih =>
    have hx : x ≠ 0 := ha x (by simp)
    have := ih fun y hy => ha y (by simp [hy])
    simp [findZero, hx, this]

theorem findZero_some {l : List Nat} {z : Nat} (h : findZero l = some z) :
    ∃ a b, l = a ++ 0 :: b ∧ a.length = z ∧ ∀ x ∈ a, x ≠ 0 := by
  induction l generalizing z with
  | nil => simp [findZero] at h
  | cons x l ih =>
    by_cases hx : x = 0
    · subst hx
      have hz : z = 0 := by simpa [findZero] using h.symm
      subst hz
      exact ⟨[], l, rfl, rfl, by simp⟩
    · rw [findZero, if_neg hx, Option.map_eq_some'] at h
      obtain ⟨w, hw, hwz⟩ := h
      obtain ⟨a, b, rfl, ha, hnz⟩ := ih hw
      refine ⟨x :: a, b, rfl, by simp [ha, ← hwz], ?_⟩
      intro y hy
      rcases List.mem_cons.mp hy with rfl | hy
      · exact hx
      · exact hnz y hy

theorem findZero_lt {l : List Nat} {z : Nat} (h : findZero l = some z) : z < l.length := by
  obtain ⟨a, b, rfl, ha, -⟩ := findZero_some h
  subst ha
  simp only [List.length_append, List.length_cons]
  omega

theorem findZero_le {x y l : List Nat} (hl : l = x ++ 0 :: y) {w : Nat}
    (h : findZero l = some w) : w ≤ x.length := by
  obtain ⟨a, b, hab, ha, hnz⟩ := findZero_some h
  by_contra hlt
  push_neg at hlt
  have h0 : l[x.length]? = some 0 := by
    rw [hl, List.getElem?_append_right (Nat.le_refl _)]
    simp
  have h0' : l[x.length]? = a[x.length]? := by
    rw [hab, List.getElem?_append, if_pos (by omega)]
  have : (0 : Nat) ∈ a := by
    rw [List.mem_iff_getElem?]
    exact ⟨x.length, (h0' ▸ h0)⟩
  exact hnz 0 this rfl

theorem findZero_ne_none {l : List Nat} (h0 : (0 : Nat) ∈ l) : findZero l ≠ none := by
  intro hc
  exact findZero_eq_none.mp hc 0 h0 rfl

/-! ## Decoder theorems -/

/-- C6: when the buffer starts with the leading zero byte, the valid 3-byte
header, and later contains a terminating zero byte, `decode` removes and
returns the full frame — leading zero plus header plus payload, excluding
the trailing zero — and the buffer afterwards retains exactly the trailing
zero byte and everything following it. -/
theorem decode_emit_full_frame (p rest : List Nat) (hp : ∀ x ∈ p, x ≠ 0) :
    decode (frameOf p ++ 0 :: rest) = (some (frameOf p), 0 :: rest) := by
  have hshape : frameOf p ++ 0 :: rest = 0 :: 255 :: 1 :: 0 :: (p ++ 0 :: rest) := by
    simp [frameOf]
  have hfz : findZero (frameOf p ++ 0 :: rest) = some 0 := by
    rw [hshape]; simp [findZero]
  have hlen : ¬ (frameOf p ++ 0 :: rest).length < 4 := by
    rw [hshape]
    simp only [List.length_cons, List.length_append]
    omega
  have hk : findZero ((frameOf p ++ 0 :: rest).drop 4) = some p.length := by
    rw [hshape]
    simpa using findZero_append hp
  have hfl : p.length + 4 = (frameOf p).length := by
    simp only [frameOf, List.length_cons]
  have hne : ¬ (frameOf p ++ 0 :: rest).isEmpty := by rw [hshape]; simp
  have hlen2 : ¬ ((frameOf p).length + (rest.length + 1) < 4) := by
    simp only [frameOf, List.length_cons]
    omega
  have htail : List.take 3 (frameOf p ++ 0 :: rest).tail = [255, 1, 0] := by
    simp [hshape]
  have htake : (frameOf p ++ 0 :: rest).take (p.length + 4) = frameOf p := by
    rw [hfl]
    exact List.take_left _ _
  have hdrop : (frameOf p ++ 0 :: rest).drop (p.length + 4) = 0 :: rest := by
    rw [hfl]
    exact List.drop_left _ _
  simp [decode, hne, hfz, hlen, hlen2, htail, hk, htake, hdrop]

/-- Witness for `decode_emit_full_frame` at payload `[2, 3]` and residue `[7]`. -/
theorem decode_emit_full_frame_witness :
    decode (frameOf [2, 3] ++ 0 :: [7]) = (some (frameOf [2, 3]), 0 :: [7]) :=
  decode_emit_full_frame [2, 3] [7] (by decide)

theorem decode_nozero {src : List Nat} (h : findZero src = none) :
    decode src = (none, []) := by
  by_cases hemp : src.isEmpty
  · rw [List.isEmpty_iff] at hemp
    subst hemp
    rfl
  · simp [decode, hemp, h]

theorem decode_short {src : List Nat} {z : Nat} (hfz : findZero src = some z)
    (h4 : (src.drop z).length < 4) : decode src = (none, src.drop z) := by
  have hne : ¬ src.isEmpty := by
    intro hc
    rw [List.isEmpty_iff] at hc
    subst hc
    simp [findZero] at hfz
  have h4n : src.length - z < 4 := by simpa using h4
  simp [decode, hne, hfz, h4, h4n]

theorem decode_split {src : List Nat} {z x1 x2 x3 : Nat} {t : List Nat}
    (hfz : findZero src = some z) (hst : src.drop z = 0 :: x1 :: x2 :: x3 :: t) :
    decode src =
      if x1 = 255 ∧ x2 = 1 ∧ x3 = 0 then
        match findZero t with
        | none => (none, src.drop z)
        | some k => (some ((src.drop z).take (k + 4)), (src.drop z).drop (k + 4))
      else
        match findZero (x1 :: x2 :: x3 :: t) with
        | none => (none, [])
        | some j => (none, (src.drop z).drop (j + 1)) := by
  have hne : ¬ src.isEmpty := by
    intro hc
    rw [List.isEmpty_iff] at hc
    subst hc
    simp at hst
  have h4 : ¬ (src.drop z).length < 4 := by
    rw [hst]
    simp only [List.length_cons]
    omega
  have h4n : ¬ src.length - z < 4 := by simpa using h4
  have htail : ((src.drop z).drop 1).take 3 = [x1, x2, x3] := by simp [hst]
  have hd4 : (src.drop z).drop 4 = t := by simp [hst]
  have hd1 : (src.drop z).drop 1 = x1 :: x2 :: x3 :: t := by simp [hst]
  simp [decode, hne, hfz, h4, h4n, htail, hd4, hd1]

/-- The leading-zero decomposition of a buffer whose first zero is at `z`
and which keeps at least four bytes from there on. -/
theorem drop_split_of_findZero {src : List Nat} {z : Nat}
    (hfz : findZero src = some z) (h4 : ¬ (src.drop z).length < 4) :
    ∃ x1 x2 x3 t, src.drop z = 0 :: x1 :: x2 :: x3 :: t := by
  obtain ⟨a, b, hab, ha, hnz⟩ := findZero_some hfz
  have hs : src.drop z = 0 :: b := by
    rw [hab, ← ha]
    exact List.drop_left a (0 :: b)
  rcases b with _ | ⟨x1, _ | ⟨x2, _ | ⟨x3, t⟩⟩⟩
  · rw [hs] at h4
    simp at h4
  · rw [hs] at h4
    simp at h4
  · rw [hs] at h4
    simp at h4
  · exact ⟨x1, x2, x3, t, hs⟩

/-- C8 (totality): on every possible buffer content all the partial
operations of `decode` are in range — `decodeChecked` never signals an
abort and agrees with `decode`. -/
theorem decodeChecked_eq (src : List Nat) : decodeChecked src = some (decode src) := by
  by_cases hemp : src.isEmpty
  · simp [decode, decodeChecked, hemp]
  · cases hfz : findZero src with
    | none => simp [decode, decodeChecked, hemp, hfz]
    | some z =>
      have hzlt : z < src.length := findZero_lt hfz
      have hz2 : ¬ src.length < z := by omega
      by_cases h4 : (src.drop z).length < 4
      · have h4n : src.length - z < 4 := by simpa using h4
        simp [decodeChecked, hemp, hfz, hz2, h4, h4n, decode_short hfz h4]
      · obtain ⟨x1, x2, x3, t, hst⟩ := drop_split_of_findZero hfz h4
        have g1 : src[z + 1]? = some x1 := by
          rw [← List.getElem?_drop, hst]
          simp
        have g2 : src[z + 2]? = some x2 := by
          rw [← List.getElem?_drop, hst]
          simp
        have g3 : src[z + 3]? = some x3 := by
          rw [← List.getElem?_drop, hst]
          simp
        have hsl : src.length - z = t.length + 4 := by
          have h5 : (src.drop z).length = t.length + 4 := by
            rw [hst]
            simp only [List.length_cons]
          simpa using h5
        have h4n : ¬ src.length - z < 4 := by omega
        have d4 : src.drop (z + 4) = t := by
          rw [← List.drop_drop, hst]
          rfl
        have d1 : src.drop (z + 1) = x1 :: x2 :: x3 :: t := by
          rw [← List.drop_drop, hst]
          rfl
        rw [decode_split hfz hst]
        by_cases hh : x1 = 255 ∧ x2 = 1 ∧ x3 = 0
        · rw [if_pos hh]
          cases hk : findZero t with
          | none => simp [decodeChecked, hemp, hfz, hz2, h4, h4n, g1, g2, g3, hh, d4, hk]
          | some k =>
            have hkb : k < t.length := findZero_lt hk
            have hns : ¬ src.length - z < k + 4 := by omega
            simp [decodeChecked, hemp, hfz, hz2, h4, h4n, g1, g2, g3, hh, d4, hk, hns]
        · rw [if_neg hh]
          cases hj : findZero (x1 :: x2 :: x3 :: t) with
          | none => simp [decodeChecked, hemp, hfz, hz2, h4, h4n, g1, g2, g3, hh, d1, hj]
          | some j =>
            have hjb : j < t.length + 3 := by
              have h6 := findZero_lt hj
              simpa using h6
            have hns : ¬ src.length - z < j + 1 := by omega
            simp [decodeChecked, hemp, hfz, hz2, h4, h4n, g1, g2, g3, hh, d1, hj, hns]

theorem drainF_nil (f : Nat) : drainF f [] = ([], []) := by
  cases f with
  | zero => rfl
  | succ f => simp [drainF, decode]

theorem hdr3_pref_cons (t : List Nat) : hdr3 <+: 255 :: 1 :: 0 :: t :=
  ⟨t, by simp [hdr3]⟩

/-- After the envelope has been consumed the buffer is always a prefix of a
suffix of the terminator byte followed by the tail noise; provided the tail
noise does not contain the header bytes, draining such a buffer emits no
frame and only drops a prefix. -/
theorem drain_post {v : List Nat} (hv : ¬ hdr3 <:+: v) :
    ∀ fuel (buf : List Nat) (k : Nat), buf.length < fuel → buf <+: (0 :: v).drop k →
      ∃ d, d ≤ buf.length ∧ drainF fuel buf = ([], buf.drop d) := by
  intro fuel
  induction fuel with
  | zero =>
    intro buf k h _
    omega
  | succ f ih =>
    intro buf k hlen hpre
    have hpd : ∀ m, buf.drop m <+: (0 :: v).drop (k + m) := by
      intro m
      have h1 := pref_drop_mono hpre m
      rwa [List.drop_drop] at h1
    by_cases hbe : buf = []
    · subst hbe
      exact ⟨0, Nat.le_refl _, drainF_nil _⟩
    have hbl : 0 < buf.length := List.length_pos.mpr hbe
    have hf1 : 0 < f := by omega
    cases hfz : findZero buf with
    | none =>
      have hdec : decode buf = (none, []) := decode_nozero hfz
      have hstep : drainF (f + 1) buf = drainF f [] := by
        simp only [drainF, hdec]
        rw [if_pos (by simpa using hbl)]
      refine ⟨buf.length, Nat.le_refl _, ?_⟩
      rw [hstep, drainF_nil, List.drop_length]
    | some z =>
      have hzl : z < buf.length := findZero_lt hfz
      by_cases h4 : (buf.drop z).length < 4
      · have hdec := decode_short hfz h4
        by_cases hz : z = 0
        · subst hz
          rw [List.drop_zero] at hdec
          have hstep : drainF (f + 1) buf = ([], buf) := by
            simp only [drainF, hdec]
            rw [if_neg (Nat.lt_irrefl _)]
          exact ⟨0, by omega, by simp [hstep]⟩
        · have hcond : (buf.drop z).length < buf.length := by
            rw [List.length_drop]
            omega
          have hstep : drainF (f + 1) buf = drainF f (buf.drop z) := by
            simp only [drainF, hdec]
            rw [if_pos hcond]
          obtain ⟨d, hd, hdrain⟩ :=
            ih (buf.drop z) (k + z) (by rw [List.length_drop]; omega) (hpd z)
          rw [List.length_drop] at hd
          refine ⟨z + d, by omega, ?_⟩
          rw [hstep, hdrain, List.drop_drop]
      · obtain ⟨x1, x2, x3, t, hst⟩ := drop_split_of_findZero hfz h4
        have hb : buf.drop (z + 1) = x1 :: x2 :: x3 :: t := by
          rw [← List.drop_drop, hst]
          rfl
        have hbl4 : (buf.drop z).length = t.length + 4 := by
          rw [hst]
          simp only [List.length_cons]
        have hlen2 : buf.length = z + t.length + 4 := by
          rw [List.length_drop] at hbl4
          omega
        have hh : ¬ (x1 = 255 ∧ x2 = 1 ∧ x3 = 0) := by
          rintro ⟨rfl, rfl, rfl⟩
          have hpre2 := hpd (z + 1)
          rw [hb] at hpre2
          have he : (0 :: v).drop (k + (z + 1)) = v.drop (k + z) := by
            rw [show k + (z + 1) = (k + z) + 1 by omega, List.drop_succ_cons]
          rw [he] at hpre2
          exact hv (infix_of_pref_drop ((hdr3_pref_cons t).trans hpre2))
        have hsplit := decode_split hfz hst
        rw [if_neg hh] at hsplit
        cases hj : findZero (x1 :: x2 :: x3 :: t) with
        | none =>
          simp only [hj] at hsplit
          have hstep : drainF (f + 1) buf = drainF f [] := by
            simp only [drainF, hsplit]
            rw [if_pos (by simpa using hbl)]
          refine ⟨buf.length, Nat.le_refl _, ?_⟩
          rw [hstep, drainF_nil, List.drop_length]
        | some j =>
          simp only [hj] at hsplit
          have hout : (buf.drop z).drop (j + 1) = buf.drop (z + (j + 1)) :=
            List.drop_drop _ _ _
          rw [hout] at hsplit
          have hjb : j < t.length + 3 := by
            have h6 := findZero_lt hj
            simpa using h6
          have hcond : (buf.drop (z + (j + 1))).length < buf.length := by
            rw [List.length_drop]
            omega
          have hstep : drainF (f + 1) buf = drainF f (buf.drop (z + (j + 1))) := by
            simp only [drainF, hsplit]
            rw [if_pos hcond]
          obtain ⟨d, hd, hdrain⟩ :=
            ih (buf.drop (z + (j + 1))) (k + (z + (j + 1)))
              (by rw [List.length_drop]; omega) (hpd (z + (j + 1)))
          rw [List.length_drop] at hd
          refine ⟨z + (j + 1) + d, by omega, ?_⟩
          rw [hstep, hdrain, List.drop_drop]

/-- Before the envelope's leading zero has been reached, draining a buffer
that is a prefix of `noise ++ frame` (with the noise unable to fake the
header) emits nothing and consumes at most the noise. -/
theorem drain_seek {p : List Nat} (hp : ∀ x ∈ p, x ≠ 0) :
    ∀ fuel (m buf : List Nat), buf.length < fuel → ¬ hdr3 <:+: (m ++ [0]) →
      buf <+: m ++ frameOf p →
      ∃ d, d ≤ m.length ∧ d ≤ buf.length ∧ drainF fuel buf = ([], buf.drop d) := by
  intro fuel
  induction fuel with
  | zero =>
    intro m buf h _ _
    omega
  | succ f ih =>
    intro m buf hlen hm hbufpre
    have hm0 : m ++ [0] <+: m ++ frameOf p := ⟨255 :: 1 :: 0 :: p, by simp [frameOf]⟩
    by_cases hbe : buf = []
    · subst hbe
      exact ⟨0, Nat.zero_le _, Nat.zero_le _, drainF_nil _⟩
    have hbl : 0 < buf.length := List.length_pos.mpr hbe
    cases hfz : findZero buf with
    | none =>
      have hblm : buf.length ≤ m.length := by
        by_contra hgt
        push_neg at hgt
        have h2 : m ++ [0] <+: buf :=
          List.prefix_of_prefix_length_le hm0 hbufpre
            (by simp only [List.length_append, List.length_cons, List.length_nil]; omega)
        have h3 : (0 : Nat) ∈ buf := h2.subset (by simp)
        exact findZero_ne_none h3 hfz
      have hdec : decode buf = (none, []) := decode_nozero hfz
      have hstep : drainF (f + 1) buf = drainF f [] := by
        simp only [drainF, hdec]
        rw [if_pos (by simpa using hbl)]
      refine ⟨buf.length, hblm, Nat.le_refl _, ?_⟩
      rw [hstep, drainF_nil, List.drop_length]
    | some z =>
      have hzl : z < buf.length := findZero_lt hfz
      obtain ⟨a, b, hab, ha, hnz⟩ := findZero_some hfz
      have hzm : z ≤ m.length := by
        by_contra hgt
        push_neg at hgt
        have hap : a <+: buf := by
          rw [hab]
          exact ⟨0 :: b, rfl⟩
        have h2 : m ++ [0] <+: a :=
          List.prefix_of_prefix_length_le hm0 (hap.trans hbufpre)
            (by simp only [List.length_append, List.length_cons, List.length_nil]; omega)
        have h3 : (0 : Nat) ∈ a := h2.subset (by simp)
        exact hnz 0 h3 rfl
      have hsz : buf.drop z = 0 :: b := by
        rw [hab, ← ha]
        exact List.drop_left a (0 :: b)
      have hrec_short :
          ¬ z = 0 → decode buf = (none, buf.drop z) →
          ∃ d, d ≤ m.length ∧ d ≤ buf.length ∧ drainF (f + 1) buf = ([], buf.drop d) := by
        intro hz hdec
        have hcond : (buf.drop z).length < buf.length := by
          rw [List.length_drop]
          omega
        have hstep : drainF (f + 1) buf = drainF f (buf.drop z) := by
          simp only [drainF, hdec]
          rw [if_pos hcond]
        have hm2 : ¬ hdr3 <:+: (m.drop z ++ [0]) := not_infix_drop_app hm z
        have hpre2 : buf.drop z <+: m.drop z ++ frameOf p := by
          have h1 := pref_drop_mono hbufpre z
          rwa [List.drop_append_of_le_length hzm] at h1
        obtain ⟨d, hdm, hdb, hdrain⟩ :=
          ih (m.drop z) (buf.drop z) (by rw [List.length_drop]; omega) hm2 hpre2
        rw [List.length_drop] at hdm hdb
        refine ⟨z + d, by omega, by omega, ?_⟩
        rw [hstep, hdrain, List.drop_drop]
      by_cases h4 : (buf.drop z).length < 4
      · have hdec := decode_short hfz h4
        by_cases hz : z = 0
        · subst hz
          rw [List.drop_zero] at hdec
          have hstep : drainF (f + 1) buf = ([], buf) := by
            simp only [drainF, hdec]
            rw [if_neg (Nat.lt_irrefl _)]
          exact ⟨0, Nat.zero_le _, Nat.zero_le _, by simp [hstep]⟩
        · exact hrec_short hz hdec
      · obtain ⟨x1, x2, x3, t, hst⟩ := drop_split_of_findZero hfz h4
        have hb : b = x1 :: x2 :: x3 :: t := by
          have h5 := hsz.symm.trans hst
          exact (List.cons_eq_cons.mp h5).2
        subst hb
        have hbl4 : (buf.drop z).length = t.length + 4 := by
          rw [hst]
          simp only [List.length_cons]
        have hlenbuf : buf.length = z + t.length + 4 := by
          rw [List.length_drop] at hbl4
          omega
        by_cases hzem : z = m.length
        · -- aligned with the envelope: the header matches, no terminator yet
          have hpre2 : buf.drop z <+: frameOf p := by
            rw [hzem]
            have h1 := pref_drop_mono hbufpre m.length
            rwa [List.drop_left] at h1
          have hx : x1 = 255 ∧ x2 = 1 ∧ x3 = 0 ∧ t <+: p := by
            rw [hst] at hpre2
            obtain ⟨u, hu⟩ := hpre2
            simp only [frameOf, List.cons_append, List.cons.injEq] at hu
            exact ⟨hu.2.1, hu.2.2.1, hu.2.2.2.1, ⟨u, hu.2.2.2.2⟩⟩
          obtain ⟨rfl, rfl, rfl, htp⟩ := hx
          have htnz : findZero t = none :=
            findZero_eq_none.mpr fun x hx => hp x (htp.subset hx)
          have hsplit := decode_split hfz hst
          rw [if_pos ⟨rfl, rfl, rfl⟩] at hsplit
          simp only [htnz] at hsplit
          by_cases hz : z = 0
          · subst hz
            rw [List.drop_zero] at hsplit
            have hstep : drainF (f + 1) buf = ([], buf) := by
              simp only [drainF, hsplit]
              rw [if_neg (Nat.lt_irrefl _)]
            exact ⟨0, Nat.zero_le _, Nat.zero_le _, by simp [hstep]⟩
          · exact hrec_short hz hsplit
        · have hzlt2 : z < m.length := lt_of_le_of_ne hzm hzem
          have hza : a ++ [0] <+: m := by
            have h1 : a ++ [0] <+: buf := by
              rw [hab]
              exact ⟨x1 :: x2 :: x3 :: t, by simp⟩
            exact List.prefix_of_prefix_length_le (h1.trans hbufpre)
              ⟨frameOf p, rfl⟩
              (by simp only [List.length_append, List.length_cons, List.length_nil]; omega)
          obtain ⟨m2, hm2⟩ := hza
          have hbp : x1 :: x2 :: x3 :: t <+: m2 ++ frameOf p := by
            have h3 : a ++ 0 :: (x1 :: x2 :: x3 :: t) <+:
                a ++ 0 :: (m2 ++ frameOf p) := by
              have h4' := hbufpre
              rw [hab] at h4'
              rw [← hm2, List.append_assoc] at h4'
              simpa using h4'
            exact @pref_append_cancel Nat (a ++ [0]) _ _ (by simpa using h3)
          have hh : ¬ (x1 = 255 ∧ x2 = 1 ∧ x3 = 0) := by
            rintro ⟨rfl, rfl, rfl⟩
            have hpref : hdr3 <+: m2 ++ frameOf p := (hdr3_pref_cons t).trans hbp
            rcases m2 with _ | ⟨c0, _ | ⟨c1, _ | ⟨c2, m3⟩⟩⟩
            · obtain ⟨u, hu⟩ := hpref
              simp [hdr3, frameOf] at hu
            · obtain ⟨u, hu⟩ := hpref
              simp [hdr3, frameOf] at hu
            · obtain ⟨u, hu⟩ := hpref
              simp only [hdr3, frameOf, List.cons_append, List.append_nil,
                List.nil_append, List.cons.injEq] at hu
              obtain ⟨h1, h2, -⟩ := hu
              apply hm
              rw [← hm2]
              refine ⟨a ++ [0], [], ?_⟩
              simp [hdr3, ← h1, ← h2]
            · obtain ⟨u, hu⟩ := hpref
              simp only [hdr3, List.cons_append, List.nil_append,
                List.cons.injEq] at hu
              obtain ⟨h1, h2, h3, -⟩ := hu
              apply hm
              rw [← hm2]
              refine ⟨a ++ [0], m3 ++ [0], ?_⟩
              simp [hdr3, ← h1, ← h2, ← h3]
          have hsplit := decode_split hfz hst
          rw [if_neg hh] at hsplit
          cases hj : findZero (x1 :: x2 :: x3 :: t) with
          | none =>
            simp only [hj] at hsplit
            have hbm : t.length + 3 ≤ m2.length := by
              by_contra hgt
              push_neg at hgt
              have h1 : m2 ++ [0] <+: m2 ++ frameOf p :=
                ⟨255 :: 1 :: 0 :: p, by simp [frameOf]⟩
              have h2 : m2 ++ [0] <+: x1 :: x2 :: x3 :: t :=
                List.prefix_of_prefix_length_le h1 hbp
                  (by simp only [List.length_append, List.length_cons, List.length_nil]; omega)
              have h3 : (0 : Nat) ∈ x1 :: x2 :: x3 :: t := h2.subset (by simp)
              exact findZero_ne_none h3 hj
            have hmlen : m.length = z + 1 + m2.length := by
              rw [← hm2]
              simp only [List.length_append, List.length_cons, List.length_nil]
              omega
            have hstep : drainF (f + 1) buf = drainF f [] := by
              simp only [drainF, hsplit]
              rw [if_pos (by simpa using hbl)]
            refine ⟨buf.length, by omega, Nat.le_refl _, ?_⟩
            rw [hstep, drainF_nil, List.drop_length]
          | some j =>
            simp only [hj] at hsplit
            have hjm : j ≤ m2.length := by
              rcases le_or_lt (t.length + 3) m2.length with hle | hlt2
              · have h6 := findZero_lt hj
                simp only [List.length_cons] at h6
                omega
              · have h1 : m2 ++ [0] <+: m2 ++ frameOf p :=
                  ⟨255 :: 1 :: 0 :: p, by simp [frameOf]⟩
                have h2 : m2 ++ [0] <+: x1 :: x2 :: x3 :: t :=
                  List.prefix_of_prefix_length_le h1 hbp
                    (by simp only [List.length_append, List.length_cons, List.length_nil]; omega)
                obtain ⟨r2, hr2⟩ := h2
                have h7 : x1 :: x2 :: x3 :: t = m2 ++ 0 :: r2 := by
                  rw [← hr2]
                  simp
                exact findZero_le h7 hj
            have hmlen : m.length = z + 1 + m2.length := by
              rw [← hm2]
              simp only [List.length_append, List.length_cons, List.length_nil]
              omega
            have hout : (buf.drop z).drop (j + 1) = buf.drop (z + (j + 1)) :=
              List.drop_drop _ _ _
            rw [hout] at hsplit
            have hcond : (buf.drop (z + (j + 1))).length < buf.length := by
              rw [List.length_drop]
              omega
            have hstep : drainF (f + 1) buf = drainF f (buf.drop (z + (j + 1))) := by
              simp only [drainF, hsplit]
              rw [if_pos hcond]
            have hzj : z + (j + 1) ≤ m.length := by omega
            have hm3 : ¬ hdr3 <:+: (m.drop (z + (j + 1)) ++ [0]) :=
              not_infix_drop_app hm _
            have hpre3 : buf.drop (z + (j + 1)) <+: m.drop (z + (j + 1)) ++ frameOf p := by
              have h1 := pref_drop_mono hbufpre (z + (j + 1))
              rwa [List.drop_append_of_le_length hzj] at h1
            obtain ⟨d, hdm, hdb, hdrain⟩ :=
              ih (m.drop (z + (j + 1))) (buf.drop (z + (j + 1)))
                (by rw [List.length_drop]; omega) hm3 hpre3
            have hjb : j < t.length + 3 := by
              have h6 := findZero_lt hj
              simpa using h6
            rw [List.length_drop] at hdm
            rw [List.length_drop] at hdb
            refine ⟨z + (j + 1) + d, ?_, ?_, ?_⟩
            · omega
            · omega
            · rw [hstep, hdrain, List.drop_drop]

/-- A purported header occurrence starting strictly inside the noise either
lies inside `noise ++ [0]` (contradicting the noise hypothesis) or clashes
with the frame's leading zero byte. -/
theorem no_fake_hdr {m a m2 w : List Nat} (hm : ¬ hdr3 <:+: (m ++ [0]))
    (hm2 : (a ++ [0]) ++ m2 = m) (hpref : hdr3 <+: m2 ++ 0 :: w) : False := by
  rcases m2 with _ | ⟨c0, _ | ⟨c1, _ | ⟨c2, m3⟩⟩⟩
  · obtain ⟨v, hv⟩ := hpref
    simp [hdr3] at hv
  · obtain ⟨v, hv⟩ := hpref
    simp [hdr3] at hv
  · obtain ⟨v, hv⟩ := hpref
    simp only [hdr3, List.cons_append, List.nil_append, List.cons.injEq] at hv
    obtain ⟨h1, h2, -⟩ := hv
    apply hm
    rw [← hm2]
    refine ⟨a ++ [0], [], ?_⟩
    simp [hdr3, ← h1, ← h2]
  · obtain ⟨v, hv⟩ := hpref
    simp only [hdr3, List.cons_append, List.nil_append, List.cons.injEq] at hv
    obtain ⟨h1, h2, h3, -⟩ := hv
    apply hm
    rw [← hm2]
    refine ⟨a ++ [0], m3 ++ [0], ?_⟩
    simp [hdr3, ← h1, ← h2, ← h3]

/-- Once the whole envelope is in the buffer (after noise that cannot fake
the header), draining emits exactly the envelope's frame and leaves a
suffix of the terminator byte plus the tail noise. -/
theorem drain_emit {p u : List Nat} (hp : ∀ x ∈ p, x ≠ 0) (hu : ¬ hdr3 <:+: u) :
    ∀ fuel (m buf : List Nat), buf.length < fuel → ¬ hdr3 <:+: (m ++ [0]) →
      buf = m ++ frameOf p ++ 0 :: u →
      ∃ k, k ≤ u.length + 1 ∧ drainF fuel buf = ([frameOf p], (0 :: u).drop k) := by
  intro fuel
  induction fuel with
  | zero =>
    intro m buf h _ _
    omega
  | succ f ih =>
    intro m buf hlen hm hbuf
    have hlenbuf : buf.length = m.length + p.length + 5 + u.length := by
      rw [hbuf]
      simp only [List.length_append, List.length_cons, frameOf]
      omega
    have h0mem : (0 : Nat) ∈ buf := by
      rw [hbuf]
      simp [frameOf]
    cases hfz : findZero buf with
    | none => exact absurd hfz (findZero_ne_none h0mem)
    | some z =>
      have hzl : z < buf.length := findZero_lt hfz
      obtain ⟨a, b, hab, ha, hnz⟩ := findZero_some hfz
      have hm0 : m ++ [0] <+: buf := by
        rw [hbuf, List.append_assoc]
        refine ⟨255 :: 1 :: 0 :: p ++ 0 :: u, ?_⟩
        simp [frameOf]
      have hzm : z ≤ m.length := by
        by_contra hgt
        push_neg at hgt
        have hap : a <+: buf := by
          rw [hab]
          exact ⟨0 :: b, rfl⟩
        have h2 : m ++ [0] <+: a :=
          List.prefix_of_prefix_length_le hm0 hap
            (by simp only [List.length_append, List.length_cons, List.length_nil]; omega)
        have h3 : (0 : Nat) ∈ a := h2.subset (by simp)
        exact hnz 0 h3 rfl
      have h4 : ¬ (buf.drop z).length < 4 := by
        rw [List.length_drop]
        omega
      obtain ⟨x1, x2, x3, t, hst⟩ := drop_split_of_findZero hfz h4
      have hsz : buf.drop z = 0 :: b := by
        rw [hab, ← ha]
        exact List.drop_left a (0 :: b)
      have hb : b = x1 :: x2 :: x3 :: t := by
        have h5 := hsz.symm.trans hst
        exact (List.cons_eq_cons.mp h5).2
      subst hb
      by_cases hzem : z = m.length
      · -- aligned: emit the frame, then drain the remainder without frames
        have hdropm : buf.drop z = frameOf p ++ 0 :: u := by
          rw [hzem, hbuf, List.append_assoc]
          exact List.drop_left m (frameOf p ++ 0 :: u)
        have hx : x1 = 255 ∧ x2 = 1 ∧ x3 = 0 ∧ t = p ++ 0 :: u := by
          have h6 := hst.symm.trans hdropm
          simp only [frameOf, List.cons_append, List.cons.injEq] at h6
          exact ⟨h6.2.1, h6.2.2.1, h6.2.2.2.1, h6.2.2.2.2⟩
        obtain ⟨rfl, rfl, rfl, rfl⟩ := hx
        have hfzt : findZero (p ++ 0 :: u) = some p.length := findZero_append hp
        have hsplit := decode_split hfz hst
        rw [if_pos ⟨rfl, rfl, rfl⟩] at hsplit
        simp only [hfzt] at hsplit
        have hfl : p.length + 4 = (frameOf p).length := by
          simp only [frameOf, List.length_cons]
        have htake : (buf.drop z).take (p.length + 4) = frameOf p := by
          rw [hdropm, hfl]
          exact List.take_left _ _
        have hdrop : (buf.drop z).drop (p.length + 4) = 0 :: u := by
          rw [hdropm, hfl]
          exact List.drop_left _ _
        rw [htake, hdrop] at hsplit
        have hstep : drainF (f + 1) buf =
            (frameOf p :: (drainF f (0 :: u)).1, (drainF f (0 :: u)).2) := by
          simp only [drainF, hsplit]
        obtain ⟨d, hd, hdrain⟩ :=
          drain_post hu f (0 :: u) 0
            (by simp only [List.length_cons]; omega)
            (by simp)
        refine ⟨d, by simpa using hd, ?_⟩
        rw [hstep, hdrain]
      · -- a zero inside the noise: resynchronize and recurse
        have hzlt2 : z < m.length := lt_of_le_of_ne hzm hzem
        have hza : a ++ [0] <+: m := by
          have h1 : a ++ [0] <+: buf := by
            rw [hab]
            exact ⟨x1 :: x2 :: x3 :: t, by simp⟩
          have hmbuf : m <+: buf := ⟨frameOf p ++ 0 :: u, by rw [hbuf, List.append_assoc]⟩
          exact List.prefix_of_prefix_length_le h1 hmbuf
            (by simp only [List.length_append, List.length_cons, List.length_nil]; omega)
        obtain ⟨m2, hm2⟩ := hza
        have hbeq : x1 :: x2 :: x3 :: t = m2 ++ 0 :: (255 :: 1 :: 0 :: p ++ 0 :: u) := by
          have h7 : a ++ 0 :: (x1 :: x2 :: x3 :: t) =
              a ++ 0 :: (m2 ++ 0 :: (255 :: 1 :: 0 :: p ++ 0 :: u)) := by
            rw [← hab, hbuf, ← hm2]
            simp [frameOf]
          have h8 := List.append_cancel_left h7
          exact (List.cons_eq_cons.mp h8).2
        have hh : ¬ (x1 = 255 ∧ x2 = 1 ∧ x3 = 0) := by
          rintro ⟨rfl, rfl, rfl⟩
          exact @no_fake_hdr m a m2 (255 :: 1 :: 0 :: p ++ 0 :: u) hm hm2
            (by rw [← hbeq]; exact hdr3_pref_cons t)
        have hsplit := decode_split hfz hst
        rw [if_neg hh] at hsplit
        cases hj : findZero (x1 :: x2 :: x3 :: t) with
        | none =>
          exact absurd hj (findZero_ne_none (by rw [hbeq]; simp))
        | some j =>
          simp only [hj] at hsplit
          have hjm : j ≤ m2.length := findZero_le hbeq hj
          have hmlen : m.length = a.length + 1 + m2.length := by
            rw [← hm2]
            simp only [List.length_append, List.length_cons, List.length_nil]
          have hout : (buf.drop z).drop (j + 1) = buf.drop (z + (j + 1)) :=
            List.drop_drop _ _ _
          rw [hout] at hsplit
          have hzj : z + (j + 1) ≤ m.length := by omega
          have hcond : (buf.drop (z + (j + 1))).length < buf.length := by
            rw [List.length_drop]
            omega
          have hstep : drainF (f + 1) buf = drainF f (buf.drop (z + (j + 1))) := by
            simp only [drainF, hsplit]
            rw [if_pos hcond]
          have hm3 : ¬ hdr3 <:+: (m.drop (z + (j + 1)) ++ [0]) :=
            not_infix_drop_app hm _
          have hbuf2 : buf.drop (z + (j + 1)) =
              m.drop (z + (j + 1)) ++ frameOf p ++ 0 :: u := by
            rw [hbuf, List.append_assoc, List.drop_append_of_le_length hzj,
              List.append_assoc]
          obtain ⟨k, hk, hdrain⟩ :=
            ih (m.drop (z + (j + 1))) (buf.drop (z + (j + 1)))
              (by rw [List.length_drop]; omega) hm3 hbuf2
          exact ⟨k, hk, by rw [hstep, hdrain]⟩

theorem append_eq_split {α : Type} {a b c d : List α} (h : a ++ b = c ++ d)
    (hl : c.length ≤ a.length) : ∃ w, a = c ++ w ∧ w ++ b = d := by
  obtain ⟨w, hw⟩ := pref_of_append_eq h.symm hl
  refine ⟨w, hw.symm, ?_⟩
  rw [← hw, List.append_assoc] at h
  exact List.append_cancel_left h

/-- After the frame has been emitted, the remaining deliveries never produce
another frame. -/
theorem processFrom_post {v : List Nat} (hv : ¬ hdr3 <:+: v) :
    ∀ (cs : List (List Nat)) (buf : List Nat) (k : Nat),
      buf ++ cs.flatten = (0 :: v).drop k → processFrom buf cs = [] := by
  intro cs
  induction cs with
  | nil =>
    intro buf k h
    rfl
  | cons c cs ih =>
    intro buf k h
    rw [List.flatten_cons, ← List.append_assoc] at h
    have hpre : (buf ++ c) <+: (0 :: v).drop k := ⟨cs.flatten, h⟩
    obtain ⟨d, hd, hdrain⟩ :=
      drain_post hv ((buf ++ c).length + 1) (buf ++ c) k (by omega) hpre
    have hdr2 : drain (buf ++ c) = ([], (buf ++ c).drop d) := hdrain
    have hnext : ((buf ++ c).drop d) ++ cs.flatten = (0 :: v).drop (k + d) := by
      have h3 : ((buf ++ c) ++ cs.flatten).drop d = (0 :: v).drop (k + d) := by
        rw [h, List.drop_drop]
      rwa [List.drop_append_of_le_length hd] at h3
    simp only [processFrom, hdr2, List.nil_append]
    exact ih _ _ hnext

/-- Before the envelope is complete, deliveries drain to nothing; once the
chunk completing it arrives, exactly the envelope frame is emitted and the
rest produces nothing more. -/
theorem processFrom_seek {p n2 : List Nat} (hp : ∀ x ∈ p, x ≠ 0)
    (h2 : ¬ hdr3 <:+: n2) :
    ∀ (cs : List (List Nat)) (m buf : List Nat), ¬ hdr3 <:+: (m ++ [0]) →
      buf ++ cs.flatten = m ++ frameOf p ++ 0 :: n2 →
      buf.length ≤ m.length + (frameOf p).length →
      processFrom buf cs = [frameOf p] := by
  intro cs
  induction cs with
  | nil =>
    intro m buf hm hjoin hblen
    exfalso
    have hc := congrArg List.length hjoin
    simp only [List.flatten_nil, List.append_nil, List.length_append,
      List.length_cons] at hc
    omega
  | cons c cs ih =>
    intro m buf hm hjoin hblen
    rw [List.flatten_cons, ← List.append_assoc] at hjoin
    by_cases hca : (buf ++ c).length ≤ m.length + (frameOf p).length
    · simp only [List.length_append] at hca
      have hpre : buf ++ c <+: m ++ frameOf p :=
        pref_of_append_eq hjoin (by simp only [List.length_append]; omega)
      obtain ⟨d, hdm, hdb, hdrain⟩ :=
        drain_seek hp ((buf ++ c).length + 1) m (buf ++ c) (by omega) hm hpre
      have hdr2 : drain (buf ++ c) = ([], (buf ++ c).drop d) := hdrain
      simp only [processFrom, hdr2, List.nil_append]
      apply ih (m.drop d) ((buf ++ c).drop d) (not_infix_drop_app hm d)
      · have h3 : ((buf ++ c) ++ cs.flatten).drop d =
            (m ++ (frameOf p ++ 0 :: n2)).drop d := by
          rw [hjoin, List.append_assoc]
        rw [List.drop_append_of_le_length hdb,
          List.drop_append_of_le_length hdm, ← List.append_assoc] at h3
        exact h3
      · have e1 : ((buf ++ c).drop d).length = (buf ++ c).length - d :=
          List.length_drop _ _
        have e2 : (m.drop d).length = m.length - d := List.length_drop _ _
        have e3 : (buf ++ c).length = buf.length + c.length := List.length_append _ _
        omega
    · push_neg at hca
      simp only [List.length_append] at hca
      have hjoin2 : (buf ++ c) ++ cs.flatten = ((m ++ frameOf p) ++ [0]) ++ n2 := by
        rw [hjoin]
        simp
      obtain ⟨w, hbw, hwn⟩ := append_eq_split hjoin2
        (by simp only [List.length_append, List.length_cons, List.length_nil]; omega)
      have hww : ¬ hdr3 <:+: w :=
        not_infix_mono h2 (List.IsPrefix.isInfix ⟨cs.flatten, hwn⟩)
      have hbw2 : buf ++ c = m ++ frameOf p ++ 0 :: w := by
        rw [hbw]
        simp
      obtain ⟨k, hk, hdrain⟩ :=
        drain_emit hp hww ((buf ++ c).length + 1) m (buf ++ c) (by omega) hm hbw2
      have hdr2 : drain (buf ++ c) = ([frameOf p], (0 :: w).drop k) := hdrain
      have hrest : processFrom ((0 :: w).drop k) cs = [] := by
        refine processFrom_post h2 cs ((0 :: w).drop k) k ?_
        have h4 : (0 :: w) ++ cs.flatten = 0 :: n2 := by
          rw [← hwn]
          simp
        have h5 : ((0 :: w) ++ cs.flatten).drop k = (0 :: n2).drop k := by
          rw [h4]
        rwa [List.drop_append_of_le_length (by simpa using hk)] at h5
      simp only [processFrom, hdr2, hrest]
      rfl

/-- C5 (amended): for every byte sequence consisting of one well-formed
envelope `0x00 FF 01 00 ++ payload ++ 0x00` (zero-free payload) surrounded
by noise, where the leading noise extended by the envelope's first zero
byte does not contain the 3-byte header `FF 01 00` and the trailing noise
does not contain it either, repeatedly calling `decode` as the bytes arrive
incrementally — under every chunking of the sequence — yields exactly one
frame, namely the leading zero byte plus header plus payload (the trailing
zero delimiter excluded, the leading one included). -/
theorem decoder_incremental_single_envelope
    (n1 p n2 : List Nat) (chunks : List (List Nat))
    (hp : ∀ x ∈ p, x ≠ 0)
    (h1 : ¬ hdr3 <:+: (n1 ++ [0]))
    (h2 : ¬ hdr3 <:+: n2)
    (hS : chunks.flatten = n1 ++ frameOf p ++ 0 :: n2) :
    processFrom [] chunks = [frameOf p] := by
  refine processFrom_seek hp h2 chunks n1 [] h1 ?_ ?_
  · simpa using hS
  · simp

/-- Witness for `decoder_incremental_single_envelope`: the envelope with
payload `[2, 3]` inside noise `[7, 8]` / `[9]`, delivered in four chunks
that split the envelope across arrivals. -/
theorem decoder_incremental_single_envelope_witness :
    processFrom [] [[7], [8, 0, 255, 1], [0, 2], [3, 0, 9]] = [frameOf [2, 3]] :=
  decoder_incremental_single_envelope [7, 8] [2, 3] [9]
    [[7], [8, 0, 255, 1], [0, 2], [3, 0, 9]]
    (by decide) (by decide) (by decide) (by decide)

/-- C5 counterexample: the claim as stated fails in two ways.  First, even
for a pristine envelope with no noise at all, the emitted frame includes
the leading zero delimiter and the header, so it does not equal the
envelope's interior bytes with the delimiters excluded.  Second, for the
noise `[0, 255, 1]` — which does not contain the header sequence
`[255, 1, 0]` — the decoder emits exactly one frame that is not the
envelope's frame at all: the noise's zero byte captures the header scan and
the emitted frame is `[0, 255, 1, 0, 255, 1]`. -/
theorem decoder_incremental_counterexample :
    processFrom [] [(0 :: 255 :: 1 :: 0 :: [2, 3] ++ [0] : List Nat)] =
      [[0, 255, 1, 0, 2, 3]] ∧
    ([[0, 255, 1, 0, 2, 3]] : List (List Nat)) ≠ [[255, 1, 0, 2, 3]] ∧
    ([[0, 255, 1, 0, 2, 3]] : List (List Nat)) ≠ [[2, 3]] ∧
    ¬ hdr3 <:+: ([0, 255, 1] : List Nat) ∧
    processFrom [] [([0, 255, 1] ++ (0 :: 255 :: 1 :: 0 :: [2, 3] ++ [0]) : List Nat)] =
      [[0, 255, 1, 0, 255, 1]] ∧
    ([[0, 255, 1, 0, 255, 1]] : List (List Nat)) ≠ [[0, 255, 1, 0, 2, 3]] := by
  refine ⟨by decide, by decide, by decide, by decide, by decide, by decide⟩

/-- C8: `decode` is total on arbitrary buffer contents — every partial
operation in its body stays in range, so `decodeChecked` always returns
normally and agrees with `decode`; and malformed spans are discarded with
decoding resuming at the next plausible delimiter, so a well-formed
envelope following arbitrary junk (that cannot fake the header) is still
recovered. -/
theorem decode_total_and_recovers :
    (∀ src, decodeChecked src = some (decode src)) ∧
    (∀ m p u, (∀ x ∈ p, x ≠ 0) → ¬ hdr3 <:+: (m ++ [0]) → ¬ hdr3 <:+: u →
      (drain (m ++ frameOf p ++ 0 :: u)).1 = [frameOf p]) := by
  constructor
  · exact decodeChecked_eq
  · intro m p u hp hm hu
    obtain ⟨k, hk, hdrain⟩ :=
      drain_emit hp hu ((m ++ frameOf p ++ 0 :: u).length + 1) m _
        (by omega) hm rfl
    have hdr2 : drain (m ++ frameOf p ++ 0 :: u) = ([frameOf p], (0 :: u).drop k) :=
      hdrain
    rw [hdr2]

/-- Witness for `decode_total_and_recovers` at junk `[7, 0, 9]`, payload
`[2, 3]` and tail `[9]`. -/
theorem decode_total_and_recovers_witness :
    (drain ([7, 0, 9] ++ frameOf [2, 3] ++ 0 :: [9])).1 = [frameOf [2, 3]] ∧
    decodeChecked [5, 0, 255] = some (decode [5, 0, 255]) :=
  ⟨decode_total_and_recovers.2 [7, 0, 9] [2, 3] [9] (by decide) (by decide)
      (by decide),
    decode_total_and_recovers.1 [5, 0, 255]⟩

/-! ## Synchronizer lemmas -/

theorem mem_allKeys {fifos : List (List RangeReport)} {t : Nat} :
    t ∈ allKeys fifos ↔ ∃ f ∈ fifos, ∃ r ∈ f, r.trigger_txts = t := by
  simp only [allKeys, List.mem_dedup, List.mem_flatten, List.mem_map]
  constructor
  · rintro ⟨l, ⟨f, hf, rfl⟩, hl⟩
    obtain ⟨r, hr, hrt⟩ := List.mem_map.mp hl
    exact ⟨f, hf, r, hr, hrt⟩
  · rintro ⟨f, hf, r, hr, hrt⟩
    exact ⟨f.map fun r => r.trigger_txts, ⟨f, hf, rfl⟩, List.mem_map.mpr ⟨r, hr, hrt⟩⟩

theorem countTxts_eq_zero {fifos : List (List RangeReport)} {t : Nat} :
    countTxts fifos t = 0 ↔ ∀ f ∈ fifos, ∀ r ∈ f, ¬ r.trigger_txts = t := by
  simp [countTxts, List.sum_eq_zero_iff, List.length_eq_zero,
    List.filter_eq_nil_iff]

theorem mem_qualifying {fifos : List (List RangeReport)} {t : Nat}
    (hn : fifos ≠ []) :
    t ∈ qualifying fifos ↔ countTxts fifos t = fifos.length := by
  simp only [qualifying, List.mem_filter, beq_iff_eq]
  constructor
  · rintro ⟨-, h⟩
    exact h
  · intro h
    refine ⟨?_, h⟩
    rw [mem_allKeys]
    by_contra hnone
    push_neg at hnone
    have h0 : countTxts fifos t = 0 := countTxts_eq_zero.mpr hnone
    rw [h0] at h
    exact hn (List.length_eq_zero.mp h.symm)

theorem dropUntil_head {t : Nat} {f : List RangeReport} {r : RangeReport}
    {rest : List RangeReport} (h : dropUntil t f = r :: rest) :
    r.trigger_txts = t := by
  induction f with
  | nil => simp [dropUntil] at h
  | cons a f ih =>
    rw [dropUntil, List.dropWhile_cons] at h
    by_cases hp : (a.trigger_txts != t) = true
    · rw [if_pos hp] at h
      exact ih (by rwa [dropUntil])
    · rw [if_neg hp] at h
      simp only [bne_iff_ne, ne_eq, Decidable.not_not] at hp
      obtain ⟨rfl, -⟩ := List.cons_eq_cons.mp h.symm
      exact hp

theorem popFronts_isSome {fs : List (List RangeReport)} (h : ∀ f ∈ fs, f ≠ []) :
    popFronts fs = some (fs.map (fun f => f.headD dfltReport), fs.map List.tail) := by
  induction fs with
  | nil => rfl
  | cons f fs ih =>
    cases f with
    | nil => exact absurd rfl (h [] (by simp))
    | cons r g =>
      have h2 := ih fun f hf => h f (by simp [hf])
      simp [popFronts, h2]

theorem popFronts_some {fs : List (List RangeReport)}
    {pr : List RangeReport × List (List RangeReport)}
    (h : popFronts fs = some pr) :
    pr.1 = fs.map (fun f => f.headD dfltReport) ∧ pr.2 = fs.map List.tail ∧
      ∀ f ∈ fs, f ≠ [] := by
  induction fs generalizing pr with
  | nil =>
    rw [popFronts] at h
    obtain rfl := (Option.some.inj h).symm
    simp
  | cons f fs ih =>
    cases f with
    | nil => simp [popFronts] at h
    | cons r g =>
      rw [popFronts, Option.map_eq_some'] at h
      obtain ⟨pr2, hpr2, hmap⟩ := h
      obtain ⟨ha, hb, hc⟩ := ih hpr2
      subst hmap
      refine ⟨by simp [ha], by simp [hb], ?_⟩
      intro f hf
      rcases List.mem_cons.mp hf with rfl | hf
      · simp
      · exact hc f hf

theorem popFronts_none {fs : List (List RangeReport)} (h : popFronts fs = none) :
    ∃ f ∈ fs, f = [] := by
  induction fs with
  | nil => simp [popFronts] at h
  | cons f fs ih =>
    cases f with
    | nil => exact ⟨[], by simp, rfl⟩
    | cons r g =>
      rw [popFronts, Option.map_eq_none'] at h
      obtain ⟨f2, hf2, rfl⟩ := ih h
      exact ⟨[], by simp [hf2], rfl⟩

theorem pickHead_mem (l : List Nat) (h : l ≠ []) : pickHead l ∈ l := by
  cases l with
  | nil => exact absurd rfl h
  | cons a l => simp [pickHead]

/-- With the same choice of match value, the src/bin/magic-loc-central.rs
`synchronize` agrees with the src/main.rs one whenever the latter returns. -/
theorem main_ok_bin {pick : List Nat → Nat} {fifos : List (List RangeReport)}
    {res : Option (List RangeReport)} {fifos2 : List (List RangeReport)}
    (h : synchronizeMain pick fifos = .ok res fifos2) :
    synchronizeBin pick fifos = (res, fifos2) := by
  simp only [synchronizeMain] at h
  simp only [synchronizeBin]
  by_cases h1 : fifos.any List.isEmpty = true
  · rw [if_pos h1] at h
    rw [if_pos h1]
    obtain ⟨rfl, rfl⟩ := SyncResult.ok.inj h
    rfl
  · rw [if_neg h1] at h
    rw [if_neg h1]
    by_cases h2 : qualifying fifos = []
    · rw [if_pos h2] at h
      rw [if_pos h2]
      obtain ⟨rfl, rfl⟩ := SyncResult.ok.inj h
      rfl
    · rw [if_neg h2] at h
      rw [if_neg h2]
      cases hpf : popFronts (fifos.map (dropUntil (pick (qualifying fifos)))) with
      | none =>
        simp only [hpf] at h
        exact SyncResult.noConfusion h
      | some pr =>
        simp only [hpf] at h
        obtain ⟨hr, rfl⟩ := SyncResult.ok.inj h
        have hne1 := (popFronts_some hpf).2.2
        have hg : ¬ (fifos.map (dropUntil (pick (qualifying fifos)))).any
            List.isEmpty = true := by
          rw [List.any_eq_true]
          rintro ⟨f, hf, hfe⟩
          exact hne1 f hf (List.isEmpty_iff.mp hfe)
        rw [if_neg hg]
        simp only [hpf, ← hr]

/-- C1 (amended): when no FIFO is empty, a `trigger_txts` value qualifies as
the candidate match if and only if its total number of occurrences summed
over the front-to-back contents of all FIFOs equals the number of FIFOs
(not: appears at least once in every FIFO); and when no value satisfies
that count condition, both copies of `synchronize` return nothing and leave
the FIFOs unchanged. -/
theorem sync_candidate_iff_total_count (fifos : List (List RangeReport))
    (hn : fifos ≠ []) (hne : ∀ f ∈ fifos, f ≠ []) :
    (∀ t, t ∈ qualifying fifos ↔ countTxts fifos t = fifos.length) ∧
    (qualifying fifos = [] → ∀ pick,
      synchronizeBin pick fifos = (none, fifos) ∧
      synchronizeMain pick fifos = .ok none fifos) := by
  have hg : ¬ (fifos.any List.isEmpty = true) := by
    rw [List.any_eq_true]
    rintro ⟨f, hf, hfe⟩
    exact hne f hf (List.isEmpty_iff.mp hfe)
  constructor
  · intro t
    exact mem_qualifying hn
  · intro hq pick
    constructor
    · simp only [synchronizeBin]
      rw [if_neg hg, if_pos hq]
    · simp only [synchronizeMain]
      rw [if_neg hg, if_pos hq]

/-- Witness for `sync_candidate_iff_total_count`: two singleton FIFOs with
distinct keys — no key qualifies, so `synchronize` returns nothing and
leaves the FIFO state untouched. -/
theorem sync_candidate_iff_total_count_witness :
    (1 ∈ qualifying [[rep 1], [rep 1]] ↔
      countTxts [[rep 1], [rep 1]] 1 = ([[rep 1], [rep 1]] : List (List RangeReport)).length) ∧
    synchronizeBin pickHead [[rep 1], [rep 2]] = (none, [[rep 1], [rep 2]]) :=
  ⟨(sync_candidate_iff_total_count [[rep 1], [rep 1]] (by decide) (by decide)).1 1,
    ((sync_candidate_iff_total_count [[rep 1], [rep 2]] (by decide) (by decide)).2
      (by decide) pickHead).1⟩

/-- C1 counterexample: with FIFOs `[[5, 5], [7]]` (keys shown), the value 5
qualifies as the candidate match — its total count is 2, the number of
FIFOs — although it never appears in the second FIFO; conversely with
`[[9, 9], [9]]` the value 9 appears in every FIFO yet does not qualify
(total count 3 ≠ 2).  Moreover no value appears in every FIFO of
`[[5, 5], [7]]`, yet `synchronize` does not leave the FIFOs unchanged. -/
theorem sync_candidate_counterexample :
    5 ∈ qualifying [[rep 5, rep 5], [rep 7]] ∧
    ¬ appearsInEvery 5 [[rep 5, rep 5], [rep 7]] ∧
    appearsInEvery 9 [[rep 9, rep 9], [rep 9]] ∧
    9 ∉ qualifying [[rep 9, rep 9], [rep 9]] ∧
    (¬ ∃ t, appearsInEvery t [[rep 5, rep 5], [rep 7]]) ∧
    synchronizeBin pickHead [[rep 5, rep 5], [rep 7]] ≠
      (none, [[rep 5, rep 5], [rep 7]]) := by
  refine ⟨by decide, by decide, by decide, by decide, ?_, by decide⟩
  rintro ⟨t, ht⟩
  obtain ⟨r, hr, hrt⟩ := ht [rep 7] (by simp)
  obtain ⟨r2, hr2, hrt2⟩ := ht [rep 5, rep 5] (by simp)
  have h7 : r = rep 7 := by simpa using hr
  have h5 : r2 = rep 5 := by
    rcases List.mem_cons.mp hr2 with h | h
    · exact h
    · simpa using h
  subst h7
  subst h5
  simp only [rep] at hrt hrt2
  omega

/-- C4: a batch is only ever emitted when every FIFO is non-empty and,
after the discard phase, every FIFO is still non-empty with its front
carrying the match value; the emitted batch is exactly the per-FIFO list of
fronts in FIFO (anchor-index) order, all carrying the match value, and each
queue is then advanced by exactly one element past the discard point.  The
invariant covers both copies of `synchronize`. -/
theorem batch_emission_invariant (pick : List Nat → Nat)
    (hpick : ∀ l, l ≠ [] → pick l ∈ l) (fifos : List (List RangeReport))
    (batch : List RangeReport) (fifos2 : List (List RangeReport))
    (h : synchronizeBin pick fifos = (some batch, fifos2) ∨
      synchronizeMain pick fifos = .ok (some batch) fifos2) :
    (∀ f ∈ fifos, f ≠ []) ∧
    ∃ tm, countTxts fifos tm = fifos.length ∧
      (∀ f ∈ fifos.map (dropUntil tm), f ≠ []) ∧
      batch = (fifos.map (dropUntil tm)).map (fun f => f.headD dfltReport) ∧
      (∀ r ∈ batch, r.trigger_txts = tm) ∧
      batch.length = fifos.length ∧
      fifos2 = (fifos.map (dropUntil tm)).map List.tail := by
  have hbin : synchronizeBin pick fifos = (some batch, fifos2) := by
    rcases h with h | h
    · exact h
    · exact main_ok_bin h
  simp only [synchronizeBin] at hbin
  by_cases h1 : fifos.any List.isEmpty = true
  · rw [if_pos h1] at hbin
    simp at hbin
  · rw [if_neg h1] at hbin
    have hne : ∀ f ∈ fifos, f ≠ [] := by
      intro f hf hfe
      rw [List.any_eq_true] at h1
      exact h1 ⟨f, hf, by simp [hfe]⟩
    refine ⟨hne, ?_⟩
    by_cases h2 : qualifying fifos = []
    · rw [if_pos h2] at hbin
      simp at hbin
    · rw [if_neg h2] at hbin
      have hfn : fifos ≠ [] := by
        rintro rfl
        exact h2 rfl
      have htmq : pick (qualifying fifos) ∈ qualifying fifos := hpick _ h2
      have htmc : countTxts fifos (pick (qualifying fifos)) = fifos.length :=
        (mem_qualifying hfn).mp htmq
      by_cases h3 : (fifos.map (dropUntil (pick (qualifying fifos)))).any
          List.isEmpty = true
      · rw [if_pos h3] at hbin
        simp at hbin
      · rw [if_neg h3] at hbin
        have hne1 : ∀ f ∈ fifos.map (dropUntil (pick (qualifying fifos))), f ≠ [] := by
          intro f hf hfe
          rw [List.any_eq_true] at h3
          exact h3 ⟨f, hf, by simp [hfe]⟩
        cases hpf : popFronts (fifos.map (dropUntil (pick (qualifying fifos)))) with
        | none =>
          rw [popFronts_isSome hne1] at hpf
          exact Option.noConfusion hpf
        | some pr =>
          simp only [hpf] at hbin
          obtain ⟨hb1, hb2⟩ := Prod.mk.injEq .. |>.mp hbin
          obtain ⟨hpa, hpb, -⟩ := popFronts_some hpf
          have hbatch : batch =
              (fifos.map (dropUntil (pick (qualifying fifos)))).map
                (fun f => f.headD dfltReport) := by
            rw [← Option.some.inj hb1, hpa]
          refine ⟨pick (qualifying fifos), htmc, hne1, hbatch, ?_, ?_, ?_⟩
          · intro r hr
            rw [hbatch] at hr
            obtain ⟨f1, hf1, hr1⟩ := List.mem_map.mp hr
            obtain ⟨f0, hf0, hf01⟩ := List.mem_map.mp hf1
            cases hcc : dropUntil (pick (qualifying fifos)) f0 with
            | nil =>
              exact absurd (hf01 ▸ hcc ▸ rfl : f1 = []) (hne1 f1 hf1)
            | cons x xs =>
              have hx := dropUntil_head hcc
              have hfx : f1 = x :: xs := by rw [← hf01, hcc]
              rw [← hr1, hfx]
              simpa using hx
          · rw [hbatch]
            simp
          · rw [← hb2, hpb]

/-- Witness for `batch_emission_invariant` at the state with one matching
report in each FIFO. -/
theorem batch_emission_invariant_witness :
    (∀ f ∈ ([[rep 9], [rep 9]] : List (List RangeReport)), f ≠ []) ∧
    ∃ tm, countTxts [[rep 9], [rep 9]] tm =
        ([[rep 9], [rep 9]] : List (List RangeReport)).length ∧
      (∀ f ∈ ([[rep 9], [rep 9]] : List (List RangeReport)).map (dropUntil tm),
        f ≠ []) ∧
      [rep 9, rep 9] =
        (([[rep 9], [rep 9]] : List (List RangeReport)).map
          (dropUntil tm)).map (fun f => f.headD dfltReport) ∧
      (∀ r ∈ ([rep 9, rep 9] : List RangeReport), r.trigger_txts = tm) ∧
      ([rep 9, rep 9] : List RangeReport).length =
        ([[rep 9], [rep 9]] : List (List RangeReport)).length ∧
      ([[], []] : List (List RangeReport)) =
        (([[rep 9], [rep 9]] : List (List RangeReport)).map
          (dropUntil tm)).map List.tail :=
  batch_emission_invariant pickHead pickHead_mem [[rep 9], [rep 9]]
    [rep 9, rep 9] [[], []] (Or.inl (by decide))

/-- C10 (amended): with the same candidate-choice function, whenever the
src/main.rs `synchronize` returns normally the src/bin/magic-loc-central.rs
copy returns the same optional batch and the same final FIFO states; but
when the src/main.rs copy hits its unguarded `unwrap` (a FIFO emptied by
the discard phase), the bin copy instead returns no batch. -/
theorem synchronize_impls_agree (pick : List Nat → Nat)
    (fifos : List (List RangeReport)) :
    (∀ res fifos2, synchronizeMain pick fifos = .ok res fifos2 →
      synchronizeBin pick fifos = (res, fifos2)) ∧
    (synchronizeMain pick fifos = .panicked →
      ∃ fifos1, synchronizeBin pick fifos = (none, fifos1)) := by
  constructor
  · intro res fifos2 h
    exact main_ok_bin h
  · intro h
    simp only [synchronizeMain] at h
    by_cases h1 : fifos.any List.isEmpty = true
    · rw [if_pos h1] at h
      exact SyncResult.noConfusion h
    · rw [if_neg h1] at h
      by_cases h2 : qualifying fifos = []
      · rw [if_pos h2] at h
        exact SyncResult.noConfusion h
      · rw [if_neg h2] at h
        cases hpf : popFronts (fifos.map (dropUntil (pick (qualifying fifos)))) with
        | some pr =>
          simp only [hpf] at h
          exact SyncResult.noConfusion h
        | none =>
          obtain ⟨f, hf, rfl⟩ := popFronts_none hpf
          have h3 : (fifos.map (dropUntil (pick (qualifying fifos)))).any
              List.isEmpty = true := by
            rw [List.any_eq_true]
            exact ⟨[], hf, by simp⟩
          refine ⟨fifos.map (dropUntil (pick (qualifying fifos))), ?_⟩
          simp only [synchronizeBin]
          rw [if_neg h1, if_neg h2, if_pos h3]

/-- Witness for `synchronize_impls_agree`: on a state where both FIFOs hold
one report with the same key, the src/main.rs copy returns the batch and
the bin copy agrees exactly. -/
theorem synchronize_impls_agree_witness :
    synchronizeBin pickHead [[rep 9], [rep 9]] = (some [rep 9, rep 9], [[], []]) :=
  (synchronize_impls_agree pickHead [[rep 9], [rep 9]]).1 (some [rep 9, rep 9])
    [[], []] (by decide)

/-- C10 counterexample: on the FIFO state `[[5, 5], [7]]` the src/main.rs
`synchronize` reaches `fifo.pop_front().unwrap()` on an emptied queue and
panics, while the src/bin/magic-loc-central.rs copy returns `None` with the
second FIFO emptied — the two implementations are not observationally
equivalent. -/
theorem synchronize_impls_diverge :
    synchronizeMain pickHead [[rep 5, rep 5], [rep 7]] = .panicked ∧
    synchronizeBin pickHead [[rep 5, rep 5], [rep 7]] =
      (none, [[rep 5, rep 5], []]) := by
  exact ⟨by decide, by decide⟩

/-! ## Trilateration front-end theorems -/

theorem removeInvalid_eq : ∀ (ds : List F) (ps : List P3), ds.length = ps.length →
    (removeInvalid ds ps).1 = ds.filter (fun d => !d.gt1e6) ∧
    (removeInvalid ds ps).2.zip (removeInvalid ds ps).1 =
      (ps.zip ds).filter (fun x => !x.2.gt1e6) := by
  intro ds
  induction ds with
  | nil =>
    intro ps h
    simp [removeInvalid]
  | cons d ds ih =>
    intro ps h
    cases ps with
    | nil => simp at h
    | cons pt ps =>
      simp only [List.length_cons] at h
      obtain ⟨ih1, ih2⟩ := ih ps (by omega)
      by_cases hg : d.gt1e6 = true
      · constructor
        · simpa [removeInvalid, hg] using ih1
        · simpa [removeInvalid, hg] using ih2
      · constructor
        · simpa [removeInvalid, hg] using ih1
        · simpa [removeInvalid, hg] using ih2

theorem removeInvalid_len : ∀ (ds : List F) (ps : List P3), ds.length = ps.length →
    (removeInvalid ds ps).1.length = (removeInvalid ds ps).2.length := by
  intro ds
  induction ds with
  | nil =>
    intro ps h
    have hps : ps = [] := by
      have h2 := h.symm
      simpa using h2
    subst hps
    rfl
  | cons d ds ih =>
    intro ps h
    cases ps with
    | nil => simp at h
    | cons pt ps =>
      simp only [List.length_cons] at h
      have ih2 := ih ps (by omega)
      by_cases hg : d.gt1e6 = true
      · simp [removeInvalid, hg, ih2]
      · simp [removeInvalid, hg, ih2]

/-- C2 (amended): for every length-8 input vector the removal loop keeps
exactly the entries whose range does not compare greater than `1e6` under
IEEE semantics — so NaN and `-inf` entries are kept, and only `+inf` and
finite values above `1e6` are removed — each surviving range still paired
with its original anchor's coordinate. -/
theorem localize_filter_exact (ds : List F) (h8 : ds.length = 8) :
    (removeInvalid ds COORDINATES).1 = ds.filter (fun d => !d.gt1e6) ∧
    (removeInvalid ds COORDINATES).2.zip (removeInvalid ds COORDINATES).1 =
      (COORDINATES.zip ds).filter (fun x => !x.2.gt1e6) :=
  removeInvalid_eq ds COORDINATES (by rw [h8]; rfl)

/-- Witness for `localize_filter_exact` on a mixed concrete vector. -/
theorem localize_filter_exact_witness :
    (removeInvalid [F.fin 5, F.inf, F.nan, F.fin 2000000, F.fin 5, F.fin 5,
        F.fin 5, F.fin 5] COORDINATES).1 =
      ([F.fin 5, F.inf, F.nan, F.fin 2000000, F.fin 5, F.fin 5, F.fin 5,
        F.fin 5].filter (fun d => !d.gt1e6)) :=
  (localize_filter_exact [F.fin 5, F.inf, F.nan, F.fin 2000000, F.fin 5,
    F.fin 5, F.fin 5, F.fin 5] (by decide)).1

/-- C2 counterexample: the claim's filter — drop exactly the non-finite or
above-threshold entries — disagrees with the code: a NaN range (and a
`-inf` range) survives the loop, because `NaN > 1e6` and `-inf > 1e6` are
false in IEEE comparison. -/
theorem localize_filter_counterexample :
    F.nan ∈ (removeInvalid [F.nan, F.inf, F.neginf, F.fin 2000000, F.fin 5,
      F.fin 5, F.fin 5, F.fin 5] COORDINATES).1 ∧
    F.neginf ∈ (removeInvalid [F.nan, F.inf, F.neginf, F.fin 2000000, F.fin 5,
      F.fin 5, F.fin 5, F.fin 5] COORDINATES).1 ∧
    (removeInvalid [F.nan, F.inf, F.neginf, F.fin 2000000, F.fin 5, F.fin 5,
      F.fin 5, F.fin 5] COORDINATES).1 ≠
      ([F.nan, F.inf, F.neginf, F.fin 2000000, F.fin 5, F.fin 5, F.fin 5,
        F.fin 5].filter specValidRange) := by
  exact ⟨by decide, by decide, by decide⟩

/-- C7 (amended): `least_squares_solution` returns no estimate exactly for
mismatched or empty inputs, for every iteration kernel; consequently
`localize_point` on a length-8 vector returns no estimate exactly when
every entry compares greater than `1e6` (so a NaN entry counts as a kept
pair), and whenever at least one entry survives the filter it returns the
45-iteration Gauss-Newton result from the origin — reaching the cap
without convergence still yields that guess, never a failure. -/
theorem localize_none_iff_all_filtered {G : Type} (kernel : G → G × Bool)
    (origin : G) :
    (∀ (points : List P3) (distances : List F),
      least_squares_solution kernel origin points distances = none ↔
        (points.length ≠ distances.length ∨ points.length = 0)) ∧
    (∀ ds : List F, ds.length = 8 →
      ((localize_point kernel origin ds = none ↔ ∀ d ∈ ds, d.gt1e6) ∧
       ((∃ d ∈ ds, ¬ d.gt1e6 = true) →
         localize_point kernel origin ds = some (gnLoop kernel 45 origin)))) := by
  have hls : ∀ (points : List P3) (distances : List F),
      least_squares_solution kernel origin points distances = none ↔
        (points.length ≠ distances.length ∨ points.length = 0) := by
    intro pts dsf
    unfold least_squares_solution
    split_ifs with hc
    · exact ⟨fun _ => hc, fun _ => rfl⟩
    · constructor
      · intro h
        simp at h
      · intro h
        exact absurd h hc
  refine ⟨hls, ?_⟩
  intro ds h8
  have hlen : ds.length = COORDINATES.length := by rw [h8]; rfl
  obtain ⟨h1f, -⟩ := removeInvalid_eq ds COORDINATES hlen
  have hleq := removeInvalid_len ds COORDINATES hlen
  have hnone : localize_point kernel origin ds = none ↔ ∀ d ∈ ds, d.gt1e6 := by
    unfold localize_point
    rw [hls]
    constructor
    · rintro (hc | hc)
      · exact absurd hleq.symm hc
      · intro d hd
        have h0 : (removeInvalid ds COORDINATES).1 = [] :=
          List.length_eq_zero.mp (by omega)
        rw [h1f, List.filter_eq_nil_iff] at h0
        have := h0 d hd
        simpa using this
    · intro hall
      right
      have h0 : (removeInvalid ds COORDINATES).1 = [] := by
        rw [h1f, List.filter_eq_nil_iff]
        intro d hd
        simp [hall d hd]
      rw [← hleq, h0]
      rfl
  refine ⟨hnone, ?_⟩
  rintro ⟨d, hd, hdg⟩
  have hsome : ∀ (pts : List P3) (dsf : List F),
      ¬ least_squares_solution kernel origin pts dsf = none →
      least_squares_solution kernel origin pts dsf =
        some (gnLoop kernel 45 origin) := by
    intro pts dsf h
    unfold least_squares_solution at h ⊢
    split_ifs at h ⊢ with hc
    · exact absurd rfl h
    · rfl
  have hns : ¬ localize_point kernel origin ds = none := by
    rw [hnone]
    push_neg
    exact ⟨d, hd, hdg⟩
  exact hsome _ _ hns

/-- Witness for `localize_none_iff_all_filtered`: a vector of valid ranges
with a kernel that never reports convergence still yields an estimate. -/
theorem localize_none_iff_all_filtered_witness :
    localize_point (fun g : Unit => (g, false)) () (List.replicate 8 (F.fin 5)) =
      some (gnLoop (fun g : Unit => (g, false)) 45 ()) :=
  ((localize_none_iff_all_filtered (fun g : Unit => (g, false)) ()).2
    (List.replicate 8 (F.fin 5)) (by decide)).2 ⟨F.fin 5, by decide, by decide⟩

/-- C7 counterexample: an all-NaN range vector has zero valid pairs in the
specification's sense, yet `localize_point` returns an estimate, because
NaN entries survive the `> 1e6` filter. -/
theorem localize_all_nan_counterexample :
    ((List.replicate 8 F.nan).filter specValidRange).length = 0 ∧
    localize_point (fun g : Unit => (g, true)) () (List.replicate 8 F.nan) =
      some () := by
  exact ⟨by decide, by decide⟩

/-! ## C3: the dispatch step of sync_and_publish -/

/-- Exactly the cases in which the dispatch-and-parse step aborts: a payload
shorter than 3 bytes (the `&decoded[0..3]` slice panics), or a recognized
magic whose layout parse fails (the `.unwrap()` panics). -/
theorem dispatch_eq_none_cases (d : List Nat) :
    dispatch d = none ↔
      d.length < 3 ∨ (d.take 3 = rngMagic ∧ rngDecode d = none) ∨
        (d.take 3 = imuMagic ∧ imuDecode d = none) := by
  by_cases h1 : d.length < 3
  · simp [dispatch, h1]
  · by_cases h2 : d.take 3 = rngMagic
    · cases hr : rngDecode d with
      | none => simp [dispatch, h1, h2, hr, rngMagic, imuMagic]
      | some r => simp [dispatch, h1, h2, hr, rngMagic, imuMagic]
    · by_cases h3 : d.take 3 = imuMagic
      · cases hr : imuDecode d with
        | none => simp [dispatch, h1, h2, h3, hr, rngMagic, imuMagic]
        | some r => simp [dispatch, h1, h2, h3, hr, rngMagic, imuMagic]
      · simp [dispatch, h1, h2, h3]

/-- C3 (amended): the dispatch-and-parse step of `sync_and_publish` aborts
the pipeline task (`none`) exactly when the unstuffed payload is shorter
than 3 bytes, or starts with `b"RNG"` but fails the `RangeReport` layout
parse, or starts with `b"IMU"` but fails the `ImuReport` layout parse; on
every other payload it returns normally.  The claim that a parse failure is
a logged local error and never fatal is false: both failure cases panic,
via the `&decoded[0..3]` slice and the `.unwrap()` on the parse result. -/
theorem dispatch_panic_characterization :
    ∀ d : List Nat,
      (dispatch d).isSome = true ↔
        ¬ (d.length < 3 ∨ (d.take 3 = rngMagic ∧ rngDecode d = none) ∨
            (d.take 3 = imuMagic ∧ imuDecode d = none)) := by
  intro d
  rw [← dispatch_eq_none_cases]
  cases dispatch d <;> simp

/-- C3 counterexample: a one-byte payload and a payload holding only the
`b"RNG"` magic with no body both abort the dispatch step rather than being
logged and dropped. -/
theorem dispatch_panic_counterexample :
    dispatch [82] = none ∧ dispatch (rngMagic ++ [0]) = none := by
  decide

/-! ## C9: wire-layout round trips (src/proto.rs) -/

theorem toLE_length : ∀ (k n : Nat), (toLE k n).length = k := by
  intro k
  induction k with
  | zero => intro n; rfl
  | succ k ih => intro n; simp [toLE, ih]

theorem fromLE_toLE : ∀ (k n : Nat), n < 256 ^ k → fromLE (toLE k n) = n := by
  intro k
  induction k with
  | zero =>
    intro n h
    simp [toLE, fromLE]
    omega
  | succ k ih =>
    intro n h
    rw [pow_succ] at h
    simp only [toLE, fromLE]
    rw [ih (n / 256) (by omega)]
    omega

theorem take_app {α : Type} : ∀ (a b : List α), (a ++ b).take a.length = a := by
  intro a b
  induction a with
  | nil => rfl
  | cons x xs ih => simp [ih]

theorem drop_app {α : Type} : ∀ (a b : List α), (a ++ b).drop a.length = b := by
  intro a b
  induction a with
  | nil => rfl
  | cons x xs ih => simp

theorem take_app_of_len {α : Type} {a : List α} {n : Nat} (b : List α)
    (h : a.length = n) : (a ++ b).take n = a := by
  rw [← h]
  exact take_app a b

theorem drop_app_of_len {α : Type} {a : List α} {n : Nat} (b : List α)
    (h : a.length = n) : (a ++ b).drop n = b := by
  rw [← h]
  exact drop_app a b

theorem take_toLE (k n : Nat) (b : List Nat) : (toLE k n ++ b).take k = toLE k n :=
  take_app_of_len b (toLE_length k n)

theorem drop_toLE (k n : Nat) (b : List Nat) : (toLE k n ++ b).drop k = b :=
  drop_app_of_len b (toLE_length k n)

theorem take_magic_r (b : List Nat) : (rngMagic ++ b).take 3 = rngMagic := rfl

theorem drop_magic_r (b : List Nat) : (rngMagic ++ b).drop 3 = b := rfl

theorem take_magic_i (b : List Nat) : (imuMagic ++ b).take 3 = imuMagic := rfl

theorem drop_magic_i (b : List Nat) : (imuMagic ++ b).drop 3 = b := rfl

theorem take_magic_c (b : List Nat) : (cirMagic ++ b).take 3 = cirMagic := rfl

theorem drop_magic_c (b : List Nat) : (cirMagic ++ b).drop 3 = b := rfl

theorem flat_len (k : Nat) : ∀ l : List Nat,
    ((l.map (toLE k)).flatten).length = k * l.length := by
  intro l
  induction l with
  | nil => simp
  | cons x xs ih =>
    simp [toLE_length, ih]
    ring

theorem readWords_flat (k : Nat) : ∀ (l rest : List Nat),
    (∀ x ∈ l, x < 256 ^ k) →
    readWords k l.length ((l.map (toLE k)).flatten ++ rest) = l := by
  intro l
  induction l with
  | nil => intro rest h; rfl
  | cons x xs ih =>
    intro rest h
    show readWords k (xs.length + 1)
        ((toLE k x ++ (xs.map (toLE k)).flatten) ++ rest) = x :: xs
    rw [List.append_assoc]
    simp only [readWords]
    rw [take_toLE, drop_toLE, fromLE_toLE k x (h x (by simp)),
      ih rest (fun y hy => h y (by simp [hy]))]

theorem sampleFlat_len : ∀ l : List RawCirSample,
    (∀ s ∈ l, s.real.length = 3 ∧ s.imag.length = 3) →
    ((l.map sampleEnc).flatten).length = 6 * l.length := by
  intro l
  induction l with
  | nil => intro h; rfl
  | cons s xs ih =>
    intro h
    obtain ⟨hr, hi⟩ := h s (by simp)
    simp [sampleEnc, hr, hi, ih (fun y hy => h y (by simp [hy]))]
    ring

theorem readSamples_flat : ∀ (l : List RawCirSample) (rest : List Nat),
    (∀ s ∈ l, s.real.length = 3 ∧ s.imag.length = 3) →
    readSamples l.length ((l.map sampleEnc).flatten ++ rest) = l := by
  intro l
  induction l with
  | nil => intro rest h; rfl
  | cons s xs ih =>
    intro rest h
    obtain ⟨hr, hi⟩ := h s (by simp)
    show readSamples (xs.length + 1)
        (((s.real ++ s.imag) ++ (xs.map sampleEnc).flatten) ++ rest) = s :: xs
    rw [List.append_assoc, List.append_assoc]
    simp only [readSamples]
    have hb3 : (s.real ++ (s.imag ++ ((xs.map sampleEnc).flatten ++ rest))).drop 3 =
        s.imag ++ ((xs.map sampleEnc).flatten ++ rest) := drop_app_of_len _ hr
    have hb6 : (s.real ++ (s.imag ++ ((xs.map sampleEnc).flatten ++ rest))).drop 6 =
        (xs.map sampleEnc).flatten ++ rest := by
      rw [show (6 : Nat) = 3 + 3 from rfl, ← List.drop_drop, hb3,
        drop_app_of_len _ hi]
    rw [take_app_of_len _ hr, hb3, take_app_of_len _ hi, hb6,
      ih rest (fun y hy => h y (by simp [hy]))]

/-- Round trip for the `RangeReport` wire layout. -/
theorem rng_roundtrip (r : RangeReport) (h : RangeValid r) :
    rngDecode (rngEncode r) = some r := by
  obtain ⟨h1, h2, h3, h4, h5, h6⟩ := h
  have hW : ((r.ranges.map (toLE 8)).flatten).length = 64 := by
    rw [flat_len, h5]
  have hRW : readWords 8 8 ((r.ranges.map (toLE 8)).flatten) = r.ranges := by
    have hx := readWords_flat 8 r.ranges []
      (fun x hx => lt_of_lt_of_eq (h6 x hx) (by norm_num))
    rw [List.append_nil, h5] at hx
    exact hx
  unfold rngEncode rngDecode
  simp only [List.append_assoc, take_magic_r, drop_magic_r, take_toLE, drop_toLE,
    eq_self_iff_true, if_true]
  rw [if_pos (by simp [List.length_append, toLE_length, hW])]
  rw [fromLE_toLE 2 r.tag_addr (lt_of_lt_of_eq h1 (by norm_num)),
    fromLE_toLE 8 r.system_ts (lt_of_lt_of_eq h2 (by norm_num)),
    fromLE_toLE 1 r.seq_num (lt_of_lt_of_eq h3 (by norm_num)),
    fromLE_toLE 8 r.trigger_txts (lt_of_lt_of_eq h4 (by norm_num)), hRW]

/-- Round trip for the `ImuReport` wire layout. -/
theorem imu_roundtrip (r : ImuReport) (h : ImuValid r) :
    imuDecode (imuEncode r) = some r := by
  obtain ⟨h1, h2, h3, h4, h5, h6⟩ := h
  have hA : ((r.accel.map (toLE 4)).flatten).length = 12 := by
    rw [flat_len, h3]
  have hG : ((r.gyro.map (toLE 4)).flatten).length = 12 := by
    rw [flat_len, h5]
  have hRA : readWords 4 3 ((r.accel.map (toLE 4)).flatten ++
      (r.gyro.map (toLE 4)).flatten) = r.accel := by
    have hx := readWords_flat 4 r.accel ((r.gyro.map (toLE 4)).flatten)
      (fun x hx => lt_of_lt_of_eq (h4 x hx) (by norm_num))
    rw [h3] at hx
    exact hx
  have hRG : readWords 4 3 ((r.gyro.map (toLE 4)).flatten) = r.gyro := by
    have hx := readWords_flat 4 r.gyro []
      (fun x hx => lt_of_lt_of_eq (h6 x hx) (by norm_num))
    rw [List.append_nil, h5] at hx
    exact hx
  unfold imuEncode imuDecode
  simp only [List.append_assoc, take_magic_i, drop_magic_i, take_toLE, drop_toLE,
    eq_self_iff_true, if_true]
  rw [if_pos (by simp [List.length_append, toLE_length, hA, hG])]
  rw [drop_app_of_len _ hA]
  rw [fromLE_toLE 2 r.tag_addr (lt_of_lt_of_eq h1 (by norm_num)),
    fromLE_toLE 8 r.system_ts (lt_of_lt_of_eq h2 (by norm_num)), hRA, hRG]

/-- Round trip for the `CirReport` wire layout. -/
theorem cir_roundtrip (r : CirReport) (h : CirValid r) :
    cirDecode (cirEncode r) = some r := by
  obtain ⟨h1, h2, h3, h4, h5, h6, h7, h8, h9⟩ := h
  have hS : ((r.cir.map sampleEnc).flatten).length = 96 := by
    rw [sampleFlat_len r.cir (fun s hs => ⟨(h9 s hs).1, (h9 s hs).2.1⟩), h8]
  have hRS : readSamples 16 ((r.cir.map sampleEnc).flatten) = r.cir := by
    have hx := readSamples_flat r.cir []
      (fun s hs => ⟨(h9 s hs).1, (h9 s hs).2.1⟩)
    rw [List.append_nil, h8] at hx
    exact hx
  unfold cirEncode cirDecode
  simp only [List.append_assoc, take_magic_c, drop_magic_c, take_toLE, drop_toLE,
    eq_self_iff_true, if_true]
  rw [if_pos (by simp [List.length_append, toLE_length, hS])]
  rw [fromLE_toLE 2 r.src_addr (lt_of_lt_of_eq h1 (by norm_num)),
    fromLE_toLE 8 r.system_ts (lt_of_lt_of_eq h2 (by norm_num)),
    fromLE_toLE 1 r.seq_num (lt_of_lt_of_eq h3 (by norm_num)),
    fromLE_toLE 2 r.ip_poa (lt_of_lt_of_eq h4 (by norm_num)),
    fromLE_toLE 2 r.fp_index (lt_of_lt_of_eq h5 (by norm_num)),
    fromLE_toLE 2 r.start_index (lt_of_lt_of_eq h6 (by norm_num)),
    fromLE_toLE 2 r.cir_size (lt_of_lt_of_eq h7 (by norm_num)), hRS]

theorem signExt_triple (b0 b1 b2 : Nat) :
    signExt [b0, b1, b2] =
      if 128 ≤ b2 then (b0 : ℤ) + 256 * b1 + 65536 * b2 - 16777216
      else (b0 : ℤ) + 256 * b1 + 65536 * b2 := rfl

theorem toLE_three (m : Nat) :
    toLE 3 m = [m % 256, m / 256 % 256, m / 256 / 256 % 256] := rfl

/-- The 24-bit sign extension inverts the 24-bit two's-complement encoding
on the signed 24-bit range. -/
theorem signExt_intToBytes (v : ℤ) (hlo : -(2 ^ 23) ≤ v) (hhi : v < 2 ^ 23) :
    signExt (intToBytes24 v) = v := by
  have e : (2 : ℤ) ^ 23 = 8388608 := by norm_num
  rw [e] at hlo hhi
  unfold intToBytes24
  rw [toLE_three, signExt_triple]
  split_ifs with hc
  · omega
  · omega

/-- The 24-bit two's-complement encoding inverts the sign extension on byte
triples. -/
theorem intToBytes_signExt (b0 b1 b2 : Nat) (h0 : b0 < 256) (h1 : b1 < 256)
    (h2 : b2 < 256) : intToBytes24 (signExt [b0, b1, b2]) = [b0, b1, b2] := by
  rw [signExt_triple]
  unfold intToBytes24
  rw [toLE_three]
  split_ifs with hc
  · have hm : ((((b0 : ℤ) + 256 * b1 + 65536 * b2 - 16777216) %
        16777216).toNat) = b0 + 256 * b1 + 65536 * b2 := by omega
    rw [hm]
    have e0 : (b0 + 256 * b1 + 65536 * b2) % 256 = b0 := by omega
    have e1 : (b0 + 256 * b1 + 65536 * b2) / 256 % 256 = b1 := by omega
    have e2 : (b0 + 256 * b1 + 65536 * b2) / 256 / 256 % 256 = b2 := by omega
    rw [e0, e1, e2]
  · have hm : ((((b0 : ℤ) + 256 * b1 + 65536 * b2) % 16777216).toNat) =
        b0 + 256 * b1 + 65536 * b2 := by omega
    rw [hm]
    have e0 : (b0 + 256 * b1 + 65536 * b2) % 256 = b0 := by omega
    have e1 : (b0 + 256 * b1 + 65536 * b2) / 256 % 256 = b1 := by omega
    have e2 : (b0 + 256 * b1 + 65536 * b2) / 256 / 256 % 256 = b2 := by omega
    rw [e0, e1, e2]

/-- C9: encoding a valid `RangeReport`, `ImuReport`, or `CirReport` to its
fixed little-endian wire layout and decoding it back reproduces the
original field values exactly, and the CIR 24-bit two's-complement sign
extension is lossless over its 24-bit domain, in both directions. -/
theorem reports_roundtrip :
    (∀ r : RangeReport, RangeValid r → rngDecode (rngEncode r) = some r) ∧
    (∀ r : ImuReport, ImuValid r → imuDecode (imuEncode r) = some r) ∧
    (∀ r : CirReport, CirValid r → cirDecode (cirEncode r) = some r) ∧
    (∀ v : ℤ, -(2 ^ 23) ≤ v → v < 2 ^ 23 → signExt (intToBytes24 v) = v) ∧
    (∀ b0 b1 b2 : Nat, b0 < 256 → b1 < 256 → b2 < 256 →
      intToBytes24 (signExt [b0, b1, b2]) = [b0, b1, b2]) :=
  ⟨rng_roundtrip, imu_roundtrip, cir_roundtrip, signExt_intToBytes,
    intToBytes_signExt⟩

/-- Witness for `reports_roundtrip`: one concrete report of every kind
round-trips, and the sign extension round-trips on a negative value and a
negative byte pattern. -/
theorem reports_roundtrip_witness :
    rngDecode (rngEncode ⟨1, 2, 3, 4, List.replicate 8 5⟩) =
      some ⟨1, 2, 3, 4, List.replicate 8 5⟩ ∧
    imuDecode (imuEncode ⟨1, 2, [3, 4, 5], [6, 7, 8]⟩) =
      some ⟨1, 2, [3, 4, 5], [6, 7, 8]⟩ ∧
    cirDecode (cirEncode ⟨1, 2, 3, 4, 5, 6, 7,
        List.replicate 16 ⟨[1, 2, 3], [4, 5, 200]⟩⟩) =
      some ⟨1, 2, 3, 4, 5, 6, 7, List.replicate 16 ⟨[1, 2, 3], [4, 5, 200]⟩⟩ ∧
    signExt (intToBytes24 (-5)) = -5 ∧
    intToBytes24 (signExt [1, 2, 200]) = [1, 2, 200] :=
  ⟨reports_roundtrip.1 _ (by unfold RangeValid; decide),
    reports_roundtrip.2.1 _ (by unfold ImuValid; decide),
    reports_roundtrip.2.2.1 _ (by unfold CirValid; decide),
    reports_roundtrip.2.2.2.1 (-5) (by decide) (by decide),
    reports_roundtrip.2.2.2.2 1 2 200 (by decide) (by decide) (by decide)⟩

end MagicLoc








